import Mathlib

/-!
A verification development for a small in-memory directed-graph library:
an adjacency-list store (`Digraph`), a topological-sort layer, DFS/BFS
traversals, and a cycle-rejecting `DAG.add_edge` wrapper.

Nodes are modelled as natural numbers (the source is generic over any
hashable, comparable identifier), node attribute payloads as `Option Int`,
and edge keyword-attribute bags as association lists from strings to
integers.  Python dictionaries become association lists whose lookups read
the first binding; Python's `sorted` becomes insertion sort by `≤`.
The recursive/looping algorithms are written with an explicit fuel
parameter returning `Option`; separate theorems show the default fuel is
always sufficient, so the fuelled functions compute total results.
-/

namespace StudentGraph

abbrev N := Nat

/-- An edge-attribute bag: the `**kwargs` mapping of `add_edge`. -/
abbrev Attrs := List (String × Int)

/-- Dictionary lookup on an association list: the first binding wins. -/
def getA {κ α : Type} [DecidableEq κ] (m : List (κ × α)) (k : κ) : Option α :=
  match m with
  | [] => none
  | (k', v) :: rest => if k' = k then some v else getA rest k

/-- Dictionary assignment `m[k] = v`: replace the first binding of `k`,
or append a new binding when `k` is absent. -/
def setA {κ α : Type} [DecidableEq κ] (m : List (κ × α)) (k : κ) (v : α) :
    List (κ × α) :=
  match m with
  | [] => [(k, v)]
  | (k', v') :: rest => if k' = k then (k, v) :: rest else (k', v') :: setA rest k v

/-- The store's state: `self.adj`, `self.nodes`, `self.edges` of class
`Digraph` in `student_code.py`. -/
structure Digraph where
  adj : List (N × List N)
  nodes : List (N × Option Int)
  edges : List ((N × N) × Attrs)
deriving DecidableEq

/-- `Digraph.__init__`: the empty graph. -/
def emptyDigraph : Digraph := ⟨[], [], []⟩

/-- `node in self.adj`. -/
def hasNode (g : Digraph) (n : N) : Bool := (getA g.adj n).isSome

/-- `Digraph.add_node`: insert the node with the given attribute if absent,
otherwise do nothing. -/
def add_node (g : Digraph) (n : N) (attr : Option Int) : Digraph :=
  if hasNode g n then g
  else ⟨setA g.adj n [], setA g.nodes n attr, g.edges⟩

/-- `self.adj[node]`, defaulting to the empty list for an absent key (every
caller in the source guards the access with a membership check first). -/
def adjList (g : Digraph) (n : N) : List N := (getA g.adj n).getD []

/-- `Digraph.get_node_value`: `self.nodes.get(node)`. -/
def get_node_value (g : Digraph) (n : N) : Option Int := (getA g.nodes n).getD none

/-- Python's `sorted` on a list of nodes (ascending). -/
def sortNodes (l : List N) : List N := List.insertionSort (fun a b => a ≤ b) l

/-- `Digraph.add_edge`: ensure both endpoints exist, append the target to the
source's adjacency list when not already present, and store/overwrite the
edge's attribute bag. -/
def add_edge (g : Digraph) (a b : N) (kw : Attrs) : Digraph :=
  let g2 := add_node (add_node g a none) b none
  let l := adjList g2 a
  let l' := if b ∈ l then l else l ++ [b]
  ⟨setA g2.adj a l', g2.nodes, setA g2.edges (a, b) kw⟩

/-- `Digraph.get_edge_weight`: the `edge_weight` attribute of an edge, or
`none` when the edge or the attribute is absent. -/
def get_edge_weight (g : Digraph) (a b : N) : Option Int :=
  getA ((getA g.edges (a, b)).getD []) "edge_weight"

/-- `Digraph.successors`: raise `KeyError` when the node is absent, else the
sorted list of direct out-neighbours. -/
def successors (g : Digraph) (n : N) : Except String (List N) :=
  if hasNode g n then Except.ok (sortNodes (adjList g n))
  else Except.error "Node not in graph."

/-- `Digraph.predecessors`: raise `KeyError` when the node is absent, else
the sorted list of sources whose adjacency list contains the node. -/
def predecessors (g : Digraph) (n : N) : Except String (List N) :=
  if hasNode g n then
    Except.ok (sortNodes ((g.adj.filter (fun p => decide (n ∈ p.2))).map (fun p => p.1)))
  else Except.error "Node not in graph."

/-- The keys of the adjacency dictionary: `list(self.adj.keys())`. -/
def keysList (g : Digraph) : List N := g.adj.map (fun p => p.1)

/-- The edge relation of the store: `v` stands in `u`'s adjacency list. -/
def Edge (g : Digraph) (u v : N) : Prop := v ∈ adjList g u

instance (g : Digraph) (u v : N) : Decidable (Edge g u v) :=
  inferInstanceAs (Decidable (v ∈ adjList g u))

/-- Reachability via one or more directed edges. -/
def ReachPlus (g : Digraph) : N → N → Prop := Relation.TransGen (Edge g)

/-- Reachability via zero or more directed edges. -/
def ReachStar (g : Digraph) : N → N → Prop := Relation.ReflTransGen (Edge g)

/-- No node is reachable from itself via one or more edges. -/
def Acyclic (g : Digraph) : Prop := ∀ n, ¬ ReachPlus g n n

/-- Every adjacency target is itself a node of the graph (the store keeps
this invariant: `add_edge` auto-creates both endpoints). -/
def WF (g : Digraph) : Bool := g.adj.all (fun p => p.2.all (fun b => hasNode g b))

/-- A decidable certificate of acyclicity: a rank function that strictly
increases along every recorded adjacency. -/
def rankOK (g : Digraph) (f : N → N) : Bool :=
  g.adj.all (fun p => p.2.all (fun b => f p.1 < f b))

/-! ## Topological sort (`SortableDigraph.top_sort`)

The recursive helper `visit` is written with a fuel parameter bounding the
nesting depth of recursive visits; `tsFuel` is shown sufficient below. -/

/-- The mutable locals of `top_sort`: the `visited` set and the
`sorted_order` list being built by prepending. -/
structure TSState where
  visited : List N
  order : List N
deriving DecidableEq

mutual

/-- The recursive helper `visit` of `top_sort`: skip a visited node,
otherwise mark it visited, visit its successors in ascending order, and
prepend it to the result.  `none` signals fuel exhaustion. -/
def visitFuel (g : Digraph) (fuel : Nat) (n : N) (s : TSState) : Option TSState :=
  match fuel with
  | 0 => none
  | fuel' + 1 =>
    if n ∈ s.visited then some s
    else
      match visitListFuel g fuel' (sortNodes (adjList g n)) ⟨n :: s.visited, s.order⟩ with
      | none => none
      | some s' => some ⟨s'.visited, n :: s'.order⟩
termination_by (fuel, 0)

/-- `visit` applied to each element of a list in turn (the
`for neighbor in sorted(...)` loop). -/
def visitListFuel (g : Digraph) (fuel : Nat) (l : List N) (s : TSState) :
    Option TSState :=
  match l with
  | [] => some s
  | n :: ns =>
    match visitFuel g fuel n s with
    | none => none
    | some s' => visitListFuel g fuel ns s'
termination_by (fuel, l.length + 1)

end

/-- Sufficient fuel for `top_sort`: the visit nesting depth never exceeds
the number of adjacency keys plus one. -/
def tsFuel (g : Digraph) : Nat := (keysList g).length + 2

/-- `top_sort`'s body: visit every adjacency key in ascending order starting
from an empty visited set, returning the accumulated order. -/
def topSortFuel (g : Digraph) (fuel : Nat) : Option (List N) :=
  match visitListFuel g fuel (sortNodes (keysList g)) ⟨[], []⟩ with
  | none => none
  | some s => some s.order

/-- `SortableDigraph.top_sort`. -/
def top_sort (g : Digraph) : List N := (topSortFuel g (tsFuel g)).getD []

/-! ## DFS (`TraversableDigraph.dfs`)

The Python loop keeps an explicit stack whose top is the list's last
element; here the stack is a Lean list whose head is the top, so Python's
"append each neighbour in descending order" becomes "prepend the
ascending-filtered neighbours". -/

/-- One run of the `while stack:` loop of `dfs`.  Pops the head; a visited
node is skipped, an unvisited one is marked, appended to the path, and its
still-unvisited neighbours are pushed so that the smallest is on top. -/
def dfsLoop (g : Digraph) (fuel : Nat) (stack visited path : List N) :
    Option (List N × List N) :=
  match stack with
  | [] => some (visited, path)
  | node :: rest =>
    match fuel with
    | 0 => none
    | fuel' + 1 =>
      if node ∈ visited then dfsLoop g fuel' rest visited path
      else
        dfsLoop g fuel'
          ((((sortNodes (adjList g node)).reverse).filter
              (fun w => decide (w ∉ visited))).reverse ++ rest)
          (node :: visited) (path ++ [node])

/-- Total length of all adjacency lists. -/
def totalAdjLen (g : Digraph) : Nat := (g.adj.map (fun p => p.2.length)).sum

/-- Sufficient fuel for `dfs`: initial stack length plus total pushes. -/
def dfsFuel (g : Digraph) (start : N) : Nat :=
  (adjList g start).length + totalAdjLen g + 1

/-- `TraversableDigraph.dfs`: `KeyError` when the start node is absent, else
the ordered list of nodes reached by the explicit-stack search, excluding
the start node itself. -/
def dfs (g : Digraph) (start : N) : Except String (List N) :=
  if hasNode g start then
    Except.ok
      ((dfsLoop g (dfsFuel g start) (sortNodes (adjList g start)) [start] []).getD
        ([], [])).2
  else Except.error "Node not in graph."

/-- The list produced by `dfs`, or `[]` on a `KeyError` (used by
`DAG.add_edge`, which only calls `dfs` on a node it has just ensured). -/
def dfsRun (g : Digraph) (start : N) : List N :=
  match dfs g start with
  | Except.ok l => l
  | Except.error _ => []

/-! ## BFS (`TraversableDigraph.bfs`)

The generator is modelled as the full list of yielded nodes: draining it is
the only consumption pattern any claim mentions. -/

/-- The inner `for neighbor in sorted(...)` loop of `bfs`: mark each
still-unvisited neighbour visited and append it to the queue, sequentially. -/
def bfsStep (l : List N) (visited queue : List N) : List N × List N :=
  match l with
  | [] => (visited, queue)
  | w :: ws =>
    if w ∈ visited then bfsStep ws visited queue
    else bfsStep ws (w :: visited) (queue ++ [w])

/-- One run of the `while queue:` loop of `bfs`: dequeue the front node,
yield it, then enqueue and mark its unvisited neighbours in ascending
order. -/
def bfsLoop (g : Digraph) (fuel : Nat) (queue visited out : List N) :
    Option (List N × List N) :=
  match queue with
  | [] => some (visited, out)
  | node :: rest =>
    match fuel with
    | 0 => none
    | fuel' + 1 =>
      let vq := bfsStep (sortNodes (adjList g node)) visited rest
      bfsLoop g fuel' vq.2 vq.1 (out ++ [node])

/-- All adjacency targets of the graph, with multiplicity. -/
def allAdjValues (g : Digraph) : List N := (g.adj.map (fun p => p.2)).flatten

/-- Sufficient fuel for `bfs`: initial queue length plus the number of
possible enqueues. -/
def bfsFuel (g : Digraph) (start : N) : Nat :=
  (adjList g start).length + (allAdjValues g).length + 1

/-- `TraversableDigraph.bfs`, fully drained: `KeyError` when the start node
is absent, else the queue is seeded with the start's sorted successors (all
pre-marked visited, as is the start) and the loop yields each dequeued node
before expanding it. -/
def bfs (g : Digraph) (start : N) : Except String (List N) :=
  if hasNode g start then
    Except.ok
      ((bfsLoop g (bfsFuel g start) (sortNodes (adjList g start))
          (start :: sortNodes (adjList g start)) []).getD ([], [])).2
  else Except.error "Node not in graph."

/-- The list of nodes yielded by fully draining `bfs`, or `[]` on a
`KeyError`. -/
def bfsRun (g : Digraph) (start : N) : List N :=
  match bfs g start with
  | Except.ok l => l
  | Except.error _ => []

/-! ## The acyclic guard (`DAG.add_edge`) -/

/-- The observable outcome of a `DAG.add_edge` call: the store's state
afterwards, and whether the call raised the cycle `ValueError`.  The state
is kept even on failure because the method mutates the store (it ensures
both endpoint nodes) before it checks for a cycle. -/
structure DagResult where
  graph : Digraph
  cycleError : Bool
deriving DecidableEq

/-- `DAG.add_edge`: ensure both endpoints, raise on a self-loop or when the
source is already reachable from the target (`start_node in self.dfs(end_node)`),
otherwise delegate to the base `add_edge`. -/
def DAG.add_edge (g : Digraph) (s d : N) (kw : Attrs) : DagResult :=
  let g1 := add_node (add_node g s none) d none
  if s = d ∨ s ∈ dfsRun g1 d then ⟨g1, true⟩
  else ⟨StudentGraph.add_edge g1 s d kw, false⟩

/-- A whole session against a fresh `DAG` instance: every call is a
`dag.add_edge(src, dst, **kwargs)`, and a raised `ValueError` leaves the
mutated-so-far state in place. -/
def runDag (cmds : List (N × N × Attrs)) : Digraph :=
  cmds.foldl (fun g c => (DAG.add_edge g c.1 c.2.1 c.2.2).graph) emptyDigraph

/-- Whether an `Except` result is an error (a raised exception). -/
def isErr {ε α : Type} : Except ε α → Bool
  | Except.error _ => true
  | Except.ok _ => false

/-! ## Association-list lemmas -/

theorem getA_setA_self {κ α : Type} [DecidableEq κ] (m : List (κ × α)) (k : κ) (v : α) :
    getA (setA m k v) k = some v := by
  induction m with
  | nil => simp [getA, setA]
  | cons p rest ih =>
    obtain ⟨pk, pv⟩ := p
    by_cases h : pk = k <;> simp [getA, setA, h, ih]

theorem getA_setA_ne {κ α : Type} [DecidableEq κ] (m : List (κ × α)) (k k' : κ) (v : α)
    (h : k' ≠ k) : getA (setA m k v) k' = getA m k' := by
  induction m with
  | nil => simp [getA, setA, Ne.symm h]
  | cons p rest ih =>
    obtain ⟨pk, pv⟩ := p
    by_cases hp : pk = k
    · subst hp
      simp [getA, setA, Ne.symm h]
    · simp [getA, setA, hp, ih]

theorem getA_isSome_iff {κ α : Type} [DecidableEq κ] (m : List (κ × α)) (k : κ) :
    (getA m k).isSome = true ↔ k ∈ m.map (fun p => p.1) := by
  induction m with
  | nil => simp [getA]
  | cons p rest ih =>
    obtain ⟨pk, pv⟩ := p
    by_cases h : pk = k
    · subst h
      simp [getA]
    · simp [getA, h, ih, Ne.symm h]

theorem getA_eq_none_iff {κ α : Type} [DecidableEq κ] (m : List (κ × α)) (k : κ) :
    getA m k = none ↔ k ∉ m.map (fun p => p.1) := by
  rw [← getA_isSome_iff]
  cases getA m k <;> simp

theorem getA_mem {κ α : Type} [DecidableEq κ] (m : List (κ × α)) (k : κ) (v : α)
    (h : getA m k = some v) : (k, v) ∈ m := by
  induction m with
  | nil => simp [getA] at h
  | cons p rest ih =>
    obtain ⟨pk, pv⟩ := p
    by_cases hp : pk = k
    · subst hp
      simp [getA] at h
      simp [h]
    · simp [getA, hp] at h
      simp [ih h]

theorem mem_getA_of_nodup {κ α : Type} [DecidableEq κ] (m : List (κ × α)) (k : κ) (v : α)
    (hnd : (m.map (fun p => p.1)).Nodup) (h : (k, v) ∈ m) : getA m k = some v := by
  induction m with
  | nil => simp at h
  | cons p rest ih =>
    obtain ⟨pk, pv⟩ := p
    simp only [List.map_cons, List.nodup_cons] at hnd
    rcases List.mem_cons.mp h with h' | h'
    · rw [show pk = k by exact congrArg Prod.fst h'.symm,
        show pv = v by exact congrArg Prod.snd h'.symm]
      simp [getA]
    · have hk : pk ≠ k := by
        intro he
        subst he
        exact hnd.1 (List.mem_map.mpr ⟨(pk, v), h', rfl⟩)
      simp [getA, hk, ih hnd.2 h']

theorem hasNode_iff_mem_keys (g : Digraph) (n : N) :
    hasNode g n = true ↔ n ∈ keysList g := by
  simp [hasNode, keysList, getA_isSome_iff]

/-! ## Effect of `add_node` and `add_edge` on the store -/

theorem adjList_add_node (g : Digraph) (n : N) (a : Option Int) (m : N) :
    adjList (add_node g n a) m = adjList g m := by
  by_cases h : hasNode g n = true
  · simp [add_node, h]
  · unfold add_node
    rw [if_neg h]
    by_cases hm : m = n
    · subst hm
      have hnone : getA g.adj m = none := by
        rcases he : getA g.adj m with _ | l
        · rfl
        · exact absurd (by simp [hasNode, he]) h
      simp [adjList, getA_setA_self, hnone]
    · simp [adjList, getA_setA_ne _ _ _ _ hm]

theorem edges_add_node (g : Digraph) (n : N) (a : Option Int) :
    (add_node g n a).edges = g.edges := by
  by_cases h : hasNode g n = true
  · simp [add_node, h]
  · unfold add_node
    rw [if_neg h]

theorem hasNode_add_node_self (g : Digraph) (n : N) (a : Option Int) :
    hasNode (add_node g n a) n = true := by
  by_cases h : hasNode g n = true
  · simp [add_node, h]
  · unfold add_node
    rw [if_neg h]
    simp [hasNode, getA_setA_self]

theorem hasNode_add_node (g : Digraph) (n : N) (a : Option Int) (m : N) :
    hasNode (add_node g n a) m = (hasNode g m || decide (m = n)) := by
  by_cases hm : m = n
  · subst hm
    simp [hasNode_add_node_self]
  · by_cases h : hasNode g n = true
    · simp [add_node, h, hm]
    · unfold add_node
      rw [if_neg h]
      simp [hasNode, getA_setA_ne _ _ _ _ hm, hm]

theorem Edge_add_node (g : Digraph) (n : N) (a : Option Int) (u v : N) :
    Edge (add_node g n a) u v ↔ Edge g u v := by
  simp [Edge, adjList_add_node]

theorem adjList_add_edge (g : Digraph) (a b : N) (kw : Attrs) (m : N) :
    adjList (add_edge g a b kw) m =
      if m = a then (if b ∈ adjList g a then adjList g a else adjList g a ++ [b])
      else adjList g m := by
  have hg2 : ∀ x, adjList (add_node (add_node g a none) b none) x = adjList g x :=
    fun x => by rw [adjList_add_node, adjList_add_node]
  unfold add_edge
  by_cases hm : m = a
  · subst hm
    show (getA (setA (add_node (add_node g m none) b none).adj m
      (if b ∈ adjList (add_node (add_node g m none) b none) m
        then adjList (add_node (add_node g m none) b none) m
        else adjList (add_node (add_node g m none) b none) m ++ [b])) m).getD [] = _
    rw [getA_setA_self, if_pos rfl]
    simp only [Option.getD_some, hg2]
  · show (getA (setA (add_node (add_node g a none) b none).adj a
      (if b ∈ adjList (add_node (add_node g a none) b none) a
        then adjList (add_node (add_node g a none) b none) a
        else adjList (add_node (add_node g a none) b none) a ++ [b])) m).getD [] = _
    rw [getA_setA_ne _ _ _ _ hm, if_neg hm]
    exact hg2 m

theorem Edge_add_edge (g : Digraph) (a b : N) (kw : Attrs) (u v : N) :
    Edge (add_edge g a b kw) u v ↔ (Edge g u v ∨ (u = a ∧ v = b)) := by
  simp only [Edge, adjList_add_edge]
  by_cases hu : u = a
  · subst hu
    by_cases hb : b ∈ adjList g u
    · simp only [if_pos rfl, if_pos hb]
      constructor
      · exact fun h => Or.inl h
      · rintro (h | ⟨-, rfl⟩) <;> [exact h; exact hb]
    · simp [if_pos rfl, if_neg hb]
  · simp [hu]

theorem edges_add_edge (g : Digraph) (a b : N) (kw : Attrs) :
    (add_edge g a b kw).edges = setA g.edges (a, b) kw := by
  show setA (add_node (add_node g a none) b none).edges (a, b) kw = _
  rw [edges_add_node, edges_add_node]

/-! ## Claim C8: idempotent node insertion -/

/-- C8: calling `add_node` a second time on an existing node is a no-op —
the resulting store is the same object state — and the node's attribute
keeps the value given at the first insertion. -/
theorem add_node_idempotent (g : Digraph) (n : N) (a1 a2 : Option Int) :
    add_node (add_node g n a1) n a2 = add_node g n a1 ∧
    (hasNode g n = false → get_node_value (add_node g n a1) n = a1) := by
  constructor
  · rw [add_node.eq_def]
    rw [if_pos (hasNode_add_node_self g n a1)]
  · intro h
    unfold add_node
    rw [if_neg (by simp [h])]
    simp [get_node_value, getA_setA_self]

/-- C8 witness: a concrete double insertion. -/
theorem add_node_idempotent_witness :
    hasNode emptyDigraph 4 = false ∧
    (add_node (add_node emptyDigraph 4 (some 7)) 4 (some 9)
        = add_node emptyDigraph 4 (some 7) ∧
      (hasNode emptyDigraph 4 = false →
        get_node_value (add_node emptyDigraph 4 (some 7)) 4 = some 7)) :=
  ⟨by decide, add_node_idempotent emptyDigraph 4 (some 7) (some 9)⟩

/-! ## Claim C9: no parallel edges, attributes replaced -/

/-- C9: repeated `add_edge (a, b)` keeps the count of `b` in `a`'s adjacency
list stable, that count is exactly one whenever the store held at most one
copy before (in particular for every store built through the API), and the
edge's attribute bag is fully replaced by the most recent call's. -/
theorem add_edge_no_parallel (g : Digraph) (a b : N) (k1 k2 : Attrs) :
    (adjList (add_edge (add_edge g a b k1) a b k2) a).count b
      = (adjList (add_edge g a b k1) a).count b ∧
    ((adjList g a).count b ≤ 1 → (adjList (add_edge g a b k1) a).count b = 1) ∧
    getA (add_edge (add_edge g a b k1) a b k2).edges (a, b) = some k2 := by
  have h1 : adjList (add_edge g a b k1) a =
      if b ∈ adjList g a then adjList g a else adjList g a ++ [b] := by
    rw [adjList_add_edge, if_pos rfl]
  have hbmem : b ∈ adjList (add_edge g a b k1) a := by
    rw [h1]
    by_cases hb : b ∈ adjList g a <;> simp [hb]
  refine ⟨?_, ?_, ?_⟩
  · rw [adjList_add_edge, if_pos rfl, if_pos hbmem]
  · intro hle
    rw [h1]
    by_cases hb : b ∈ adjList g a
    · rw [if_pos hb]
      exact le_antisymm hle (List.count_pos_iff.mpr hb)
    · rw [if_neg hb]
      simp [List.count_append, List.count_eq_zero_of_not_mem hb]
  · rw [edges_add_edge, getA_setA_self]

/-- C9 witness: a concrete double insertion of the same edge with two
attribute bags. -/
theorem add_edge_no_parallel_witness :
    (adjList emptyDigraph 1 |>.count 2) ≤ 1 ∧
    ((adjList (add_edge (add_edge emptyDigraph 1 2 [("edge_weight", 3)]) 1 2
        [("edge_weight", 8)]) 1).count 2
      = (adjList (add_edge emptyDigraph 1 2 [("edge_weight", 3)]) 1).count 2 ∧
     ((adjList emptyDigraph 1).count 2 ≤ 1 →
      (adjList (add_edge emptyDigraph 1 2 [("edge_weight", 3)]) 1).count 2 = 1) ∧
     getA (add_edge (add_edge emptyDigraph 1 2 [("edge_weight", 3)]) 1 2
        [("edge_weight", 8)]).edges (1, 2) = some [("edge_weight", 8)]) :=
  ⟨by decide, add_edge_no_parallel emptyDigraph 1 2 [("edge_weight", 3)] [("edge_weight", 8)]⟩

/-! ## Claim C1: what a rejected `DAG.add_edge` leaves behind -/

/-- C1 counterexample: a rejected insertion does mutate the store — on an
empty DAG, `add_edge(5, 5)` raises, yet node 5 has been added, so the state
is not left completely unmodified. -/
theorem dag_reject_adds_endpoint_nodes :
    (DAG.add_edge emptyDigraph 5 5 []).cycleError = true ∧
    (DAG.add_edge emptyDigraph 5 5 []).graph ≠ emptyDigraph ∧
    hasNode (DAG.add_edge emptyDigraph 5 5 []).graph 5 = true := by
  decide

/-- C1 amended: a rejected `DAG.add_edge` leaves every adjacency list and
the edge-attribute dictionary unchanged (so the attempted edge does not
appear in any subsequent query), but the endpoint nodes have been ensured
present. -/
theorem dag_reject_edge_relation_unchanged (g : Digraph) (s d : N) (kw : Attrs)
    (h : (DAG.add_edge g s d kw).cycleError = true) :
    (∀ u, adjList (DAG.add_edge g s d kw).graph u = adjList g u) ∧
    (DAG.add_edge g s d kw).graph.edges = g.edges ∧
    hasNode (DAG.add_edge g s d kw).graph s = true ∧
    hasNode (DAG.add_edge g s d kw).graph d = true := by
  by_cases hc : s = d ∨ s ∈ dfsRun (add_node (add_node g s none) d none) d
  · have hg : (DAG.add_edge g s d kw).graph = add_node (add_node g s none) d none := by
      unfold DAG.add_edge
      rw [if_pos hc]
    rw [hg]
    refine ⟨fun u => by rw [adjList_add_node, adjList_add_node],
      by rw [edges_add_node, edges_add_node], ?_, hasNode_add_node_self _ _ _⟩
    rw [hasNode_add_node]
    simp [hasNode_add_node_self]
  · exfalso
    have hfalse : (DAG.add_edge g s d kw).cycleError = false := by
      unfold DAG.add_edge
      rw [if_neg hc]
    rw [hfalse] at h
    exact Bool.false_ne_true h

/-- C1 witness: the amended statement at a concrete rejected call. -/
theorem dag_reject_edge_relation_unchanged_witness :
    (DAG.add_edge emptyDigraph 3 3 []).cycleError = true ∧
    ((∀ u, adjList (DAG.add_edge emptyDigraph 3 3 []).graph u = adjList emptyDigraph u) ∧
     (DAG.add_edge emptyDigraph 3 3 []).graph.edges = emptyDigraph.edges ∧
     hasNode (DAG.add_edge emptyDigraph 3 3 []).graph 3 = true ∧
     hasNode (DAG.add_edge emptyDigraph 3 3 []).graph 3 = true) :=
  ⟨by decide, dag_reject_edge_relation_unchanged emptyDigraph 3 3 [] (by decide)⟩

/-! ## Claim C7: NotFound on queries and traversals -/

/-- C7: `successors`, `predecessors`, `dfs` and `bfs` raise exactly when the
queried node is absent, before producing any result; on a present node,
`successors` and `predecessors` return the sorted lists of direct
out-neighbours and in-neighbours. -/
theorem queries_notfound_iff_absent (g : Digraph) (n : N)
    (hnd : (keysList g).Nodup) :
    isErr (successors g n) = !hasNode g n ∧
    isErr (predecessors g n) = !hasNode g n ∧
    isErr (dfs g n) = !hasNode g n ∧
    isErr (bfs g n) = !hasNode g n ∧
    (hasNode g n = true →
      ∃ ls lp, successors g n = Except.ok ls ∧ predecessors g n = Except.ok lp ∧
        List.Sorted (fun a b => a ≤ b) ls ∧ (∀ x, x ∈ ls ↔ Edge g n x) ∧
        List.Sorted (fun a b => a ≤ b) lp ∧ (∀ x, x ∈ lp ↔ Edge g x n)) := by
  refine ⟨?_, ?_, ?_, ?_, ?_⟩
  · by_cases h : hasNode g n = true <;> simp [successors, h, isErr]
  · by_cases h : hasNode g n = true <;> simp [predecessors, h, isErr]
  · by_cases h : hasNode g n = true <;> simp [dfs, h, isErr]
  · by_cases h : hasNode g n = true <;> simp [bfs, h, isErr]
  · intro h
    refine ⟨sortNodes (adjList g n),
      sortNodes ((g.adj.filter (fun p => decide (n ∈ p.2))).map (fun p => p.1)),
      by simp [successors, h], by simp [predecessors, h], ?_, ?_, ?_, ?_⟩
    · exact List.sorted_insertionSort _ _
    · intro x
      simp [sortNodes, Edge]
    · exact List.sorted_insertionSort _ _
    · intro x
      simp only [sortNodes, List.mem_insertionSort, List.mem_map, List.mem_filter]
      constructor
      · rintro ⟨⟨pk, pl⟩, ⟨hmem, hfil⟩, rfl⟩
        have hget : getA g.adj pk = some pl := mem_getA_of_nodup _ _ _ hnd hmem
        simp only [Edge, adjList, hget, Option.getD_some]
        simpa using hfil
      · intro hx
        rcases he : getA g.adj x with _ | l
        · rw [Edge, adjList, he] at hx
          simp at hx
        · rw [Edge, adjList, he] at hx
          exact ⟨(x, l), ⟨getA_mem _ _ _ he, by simpa using hx⟩, rfl⟩

/-- C7 witness: the queries at a concrete two-edge graph. -/
theorem queries_notfound_iff_absent_witness :
    (keysList (add_edge (add_edge emptyDigraph 0 1 []) 2 1 [])).Nodup ∧
    (isErr (successors (add_edge (add_edge emptyDigraph 0 1 []) 2 1 []) 9)
        = !hasNode (add_edge (add_edge emptyDigraph 0 1 []) 2 1 []) 9 ∧
     isErr (predecessors (add_edge (add_edge emptyDigraph 0 1 []) 2 1 []) 9)
        = !hasNode (add_edge (add_edge emptyDigraph 0 1 []) 2 1 []) 9 ∧
     isErr (dfs (add_edge (add_edge emptyDigraph 0 1 []) 2 1 []) 9)
        = !hasNode (add_edge (add_edge emptyDigraph 0 1 []) 2 1 []) 9 ∧
     isErr (bfs (add_edge (add_edge emptyDigraph 0 1 []) 2 1 []) 9)
        = !hasNode (add_edge (add_edge emptyDigraph 0 1 []) 2 1 []) 9 ∧
     (hasNode (add_edge (add_edge emptyDigraph 0 1 []) 2 1 []) 9 = true →
      ∃ ls lp, successors (add_edge (add_edge emptyDigraph 0 1 []) 2 1 []) 9 = Except.ok ls ∧
        predecessors (add_edge (add_edge emptyDigraph 0 1 []) 2 1 []) 9 = Except.ok lp ∧
        List.Sorted (fun a b => a ≤ b) ls ∧
        (∀ x, x ∈ ls ↔ Edge (add_edge (add_edge emptyDigraph 0 1 []) 2 1 []) 9 x) ∧
        List.Sorted (fun a b => a ≤ b) lp ∧
        (∀ x, x ∈ lp ↔ Edge (add_edge (add_edge emptyDigraph 0 1 []) 2 1 []) x 9))) :=
  ⟨by decide, queries_notfound_iff_absent (add_edge (add_edge emptyDigraph 0 1 []) 2 1 []) 9
    (by decide)⟩

/-! ## Counterexample graph for the traversal claims: a self-loop -/

/-- A base-store graph holding the single self-loop edge 0→0 (the base
`add_edge` accepts self-loops; only the DAG layer rejects them). -/
def selfLoopG : Digraph := add_edge emptyDigraph 0 0 []

/-- C4 counterexample: with a self-loop on the start node, the drained `bfs`
does yield the start node, contradicting `start ∉ list(bfs(start))`. -/
theorem bfs_self_loop_yields_start :
    hasNode selfLoopG 0 = true ∧ 0 ∈ bfsRun selfLoopG 0 := by
  decide

/-- C5 counterexample: with a self-loop on the start node, `bfs` yields the
start node while `dfs` never returns it, so the two node sets differ. -/
theorem dfs_bfs_sets_differ_on_self_loop :
    hasNode selfLoopG 0 = true ∧ 0 ∈ bfsRun selfLoopG 0 ∧ 0 ∉ dfsRun selfLoopG 0 := by
  decide

/-! ## DFS loop invariants -/

/-- The neighbours `dfs` pushes when it expands `node`: the push expression
of the loop body, simplified (reversing, filtering, and reversing back is
filtering). -/
theorem dfs_push_eq (g : Digraph) (node : N) (visited : List N) :
    (((sortNodes (adjList g node)).reverse).filter
        (fun w => decide (w ∉ visited))).reverse
      = (sortNodes (adjList g node)).filter (fun w => decide (w ∉ visited)) := by
  rw [List.filter_reverse, List.reverse_reverse]

/-- The master invariant of the `dfs` loop, relative to a gray seed `G` (the
nodes visited but deliberately kept off the path — just the start node) and
a root `s`:  the visited set is exactly `G` plus the path, `G` stays off the
path, visited and path only grow, every finished node's successors are
visited, and every path node is reachable from `s`. -/
theorem dfsLoop_spec (g : Digraph) (G : List N) (s : N) :
    ∀ fuel stack visited path v' p',
      dfsLoop g fuel stack visited path = some (v', p') →
      (∀ x, x ∈ visited ↔ (x ∈ G ∨ x ∈ path)) →
      (∀ x ∈ G, x ∉ path) →
      (∀ u, u ∈ visited → ∀ w, Edge g u w → (w ∈ visited ∨ w ∈ stack)) →
      (∀ x ∈ stack, ReachPlus g s x) →
      (∀ x ∈ path, ReachPlus g s x) →
      ((∀ x, x ∈ v' ↔ (x ∈ G ∨ x ∈ p')) ∧ (∀ x ∈ G, x ∉ p') ∧
       (∀ u, u ∈ v' → ∀ w, Edge g u w → w ∈ v') ∧
       (∀ x ∈ p', ReachPlus g s x) ∧
       (∀ x ∈ visited, x ∈ v') ∧ (∀ x ∈ path, x ∈ p')) := by
  intro fuel
  induction fuel with
  | zero =>
    intro stack visited path v' p' hrun h1 h2 h3 h4 h5
    cases stack with
    | nil =>
      simp only [dfsLoop, Option.some.injEq, Prod.mk.injEq] at hrun
      obtain ⟨rfl, rfl⟩ := hrun
      exact ⟨h1, h2, fun u hu w hw => (h3 u hu w hw).resolve_right (by simp),
        h5, fun x hx => hx, fun x hx => hx⟩
    | cons node rest => simp [dfsLoop] at hrun
  | succ fuel ih =>
    intro stack visited path v' p' hrun h1 h2 h3 h4 h5
    cases stack with
    | nil =>
      simp only [dfsLoop, Option.some.injEq, Prod.mk.injEq] at hrun
      obtain ⟨rfl, rfl⟩ := hrun
      exact ⟨h1, h2, fun u hu w hw => (h3 u hu w hw).resolve_right (by simp),
        h5, fun x hx => hx, fun x hx => hx⟩
    | cons node rest =>
      by_cases hv : node ∈ visited
      · rw [show dfsLoop g (fuel + 1) (node :: rest) visited path
            = dfsLoop g fuel rest visited path by simp [dfsLoop, hv]] at hrun
        refine ih rest visited path v' p' hrun h1 h2 ?_ ?_ h5
        · intro u hu w hw
          rcases h3 u hu w hw with h | h
          · exact Or.inl h
          · rcases List.mem_cons.mp h with rfl | h
            · exact Or.inl hv
            · exact Or.inr h
        · exact fun x hx => h4 x (List.mem_cons_of_mem _ hx)
      · have hnode : ReachPlus g s node := h4 node (List.mem_cons_self _ _)
        have hG : node ∉ G := fun hg => hv ((h1 node).mpr (Or.inl hg))
        rw [show dfsLoop g (fuel + 1) (node :: rest) visited path
            = dfsLoop g fuel
                ((((sortNodes (adjList g node)).reverse).filter
                  (fun w => decide (w ∉ visited))).reverse ++ rest)
                (node :: visited) (path ++ [node]) by simp [dfsLoop, hv]] at hrun
        rw [dfs_push_eq] at hrun
        have hA : ∀ x, x ∈ node :: visited ↔ (x ∈ G ∨ x ∈ path ++ [node]) := by
          intro x
          constructor
          · intro hx
            rcases List.mem_cons.mp hx with rfl | hx
            · exact Or.inr (by simp)
            · rcases (h1 x).mp hx with h | h
              · exact Or.inl h
              · exact Or.inr (by simp [h])
          · rintro (h | h)
            · exact List.mem_cons_of_mem _ ((h1 x).mpr (Or.inl h))
            · rcases List.mem_append.mp h with h | h
              · exact List.mem_cons_of_mem _ ((h1 x).mpr (Or.inr h))
              · simp at h
                subst h
                exact List.mem_cons_self _ _
        have hB : ∀ x ∈ G, x ∉ path ++ [node] := by
          intro x hx
          simp only [List.mem_append, List.mem_singleton]
          rintro (h | rfl)
          · exact h2 x hx h
          · exact hG hx
        have hC : ∀ u, u ∈ node :: visited → ∀ w, Edge g u w →
            (w ∈ node :: visited ∨
             w ∈ (sortNodes (adjList g node)).filter (fun w => decide (w ∉ visited)) ++ rest) := by
          intro u hu w hw
          rcases List.mem_cons.mp hu with rfl | hu
          · by_cases hwv : w ∈ visited
            · exact Or.inl (List.mem_cons_of_mem _ hwv)
            · refine Or.inr (List.mem_append.mpr (Or.inl ?_))
              apply List.mem_filter.mpr
              refine ⟨?_, by simpa using hwv⟩
              simpa [sortNodes] using hw
          · rcases h3 u hu w hw with h | h
            · exact Or.inl (List.mem_cons_of_mem _ h)
            · rcases List.mem_cons.mp h with rfl | h
              · exact Or.inl (List.mem_cons_self _ _)
              · exact Or.inr (List.mem_append.mpr (Or.inr h))
        have hD : ∀ x ∈ (sortNodes (adjList g node)).filter
            (fun w => decide (w ∉ visited)) ++ rest, ReachPlus g s x := by
          intro x hx
          rcases List.mem_append.mp hx with h | h
          · have hadj : x ∈ adjList g node := by
              have := (List.mem_filter.mp h).1
              simpa [sortNodes] using this
            exact Relation.TransGen.tail hnode hadj
          · exact h4 x (List.mem_cons_of_mem _ h)
        have hE : ∀ x ∈ path ++ [node], ReachPlus g s x := by
          intro x hx
          rcases List.mem_append.mp hx with h | h
          · exact h5 x h
          · simp at h
            subst h
            exact hnode
        obtain ⟨c1, c2, c3, c4, c5, c6⟩ :=
          ih _ (node :: visited) (path ++ [node]) v' p' hrun hA hB hC hD hE
        exact ⟨c1, c2, c3, c4, fun x hx => c5 x (List.mem_cons_of_mem _ hx),
          fun x hx => c6 x (List.mem_append.mpr (Or.inl hx))⟩

/-- Nodes already visited and off the path never enter the path (in
particular, the start node never appears in a `dfs` result). -/
theorem dfsLoop_excludes (g : Digraph) (x : N) :
    ∀ fuel stack visited path v' p',
      x ∈ visited → x ∉ path →
      dfsLoop g fuel stack visited path = some (v', p') → x ∉ p' := by
  intro fuel
  induction fuel with
  | zero =>
    intro stack visited path v' p' hxv hxp hrun
    cases stack with
    | nil =>
      simp only [dfsLoop, Option.some.injEq, Prod.mk.injEq] at hrun
      obtain ⟨rfl, rfl⟩ := hrun
      exact hxp
    | cons node rest => simp [dfsLoop] at hrun
  | succ fuel ih =>
    intro stack visited path v' p' hxv hxp hrun
    cases stack with
    | nil =>
      simp only [dfsLoop, Option.some.injEq, Prod.mk.injEq] at hrun
      obtain ⟨rfl, rfl⟩ := hrun
      exact hxp
    | cons node rest =>
      by_cases hv : node ∈ visited
      · rw [show dfsLoop g (fuel + 1) (node :: rest) visited path
            = dfsLoop g fuel rest visited path by simp [dfsLoop, hv]] at hrun
        exact ih rest visited path v' p' hxv hxp hrun
      · rw [show dfsLoop g (fuel + 1) (node :: rest) visited path
            = dfsLoop g fuel
                ((((sortNodes (adjList g node)).reverse).filter
                  (fun w => decide (w ∉ visited))).reverse ++ rest)
                (node :: visited) (path ++ [node]) by simp [dfsLoop, hv]] at hrun
        refine ih _ (node :: visited) (path ++ [node]) v' p'
          (List.mem_cons_of_mem _ hxv) ?_ hrun
        simp only [List.mem_append, List.mem_singleton]
        rintro (h | rfl)
        · exact hxp h
        · exact hv hxv

/-! ## DFS fuel sufficiency -/

/-- The remaining expansion budget: total length of the adjacency lists of
the not-yet-visited keys. -/
def adjWeight (g : Digraph) (visited : List N) : Nat :=
  ((g.adj.filter (fun p => decide (p.1 ∉ visited))).map (fun p => p.2.length)).sum

theorem filter_cons_true {α : Type} (p : α → Bool) (a : α) (l : List α)
    (h : p a = true) : (a :: l).filter p = a :: l.filter p := by
  simp [List.filter_cons, h]

theorem filter_cons_false {α : Type} (p : α → Bool) (a : α) (l : List α)
    (h : p a = false) : (a :: l).filter p = l.filter p := by
  simp [List.filter_cons, h]

theorem weight_filter_mono (l : List (N × List N)) (v v' : List N)
    (h : ∀ x ∈ v, x ∈ v') :
    ((l.filter (fun p => decide (p.1 ∉ v'))).map (fun p => p.2.length)).sum ≤
    ((l.filter (fun p => decide (p.1 ∉ v))).map (fun p => p.2.length)).sum := by
  induction l with
  | nil => simp
  | cons p rest ih =>
    obtain ⟨pk, pl⟩ := p
    by_cases hv' : pk ∈ v'
    · rw [filter_cons_false _ _ _ (by simp [hv'])]
      by_cases hv : pk ∈ v
      · rw [filter_cons_false _ _ _ (by simp [hv])]
        exact ih
      · rw [filter_cons_true _ _ _ (by simp [hv])]
        simp only [List.map_cons, List.sum_cons]
        omega
    · have hv : pk ∉ v := fun hx => hv' (h pk hx)
      rw [filter_cons_true _ _ _ (by simp [hv']),
        filter_cons_true _ _ _ (by simp [hv])]
      simp only [List.map_cons, List.sum_cons]
      omega

theorem adjWeight_mono (g : Digraph) (v v' : List N) (h : ∀ x ∈ v, x ∈ v') :
    adjWeight g v' ≤ adjWeight g v :=
  weight_filter_mono g.adj v v' h

theorem weight_filter_expand (l : List (N × List N)) (v : List N) (n : N)
    (hn : n ∉ v) :
    ((l.filter (fun p => decide (p.1 ∉ n :: v))).map (fun p => p.2.length)).sum
      + ((getA l n).getD []).length
    ≤ ((l.filter (fun p => decide (p.1 ∉ v))).map (fun p => p.2.length)).sum := by
  induction l with
  | nil => simp [getA]
  | cons p rest ih =>
    obtain ⟨pk, pl⟩ := p
    by_cases hp : pk = n
    · subst hp
      have hmono : ((rest.filter (fun p => decide (p.1 ∉ pk :: v))).map
          (fun p => p.2.length)).sum ≤
          ((rest.filter (fun p => decide (p.1 ∉ v))).map (fun p => p.2.length)).sum :=
        weight_filter_mono rest v (pk :: v) (fun x hx => List.mem_cons_of_mem _ hx)
      rw [filter_cons_false _ _ _ (by simp), filter_cons_true _ _ _ (by simp [hn])]
      rw [show getA ((pk, pl) :: rest) pk = some pl by simp [getA]]
      simp only [List.map_cons, List.sum_cons, Option.getD_some]
      omega
    · have hget : getA ((pk, pl) :: rest) n = getA rest n := by
        simp [getA, hp]
      rw [hget]
      by_cases hv : pk ∈ v
      · rw [filter_cons_false _ _ _ (by simp [hv]),
          filter_cons_false _ _ _ (by simp [List.mem_cons, hv])]
        exact ih
      · have hcond : (decide (pk ∉ n :: v)) = true := by
          rw [decide_eq_true_eq]
          intro hmem
          rcases List.mem_cons.mp hmem with he | he
          · exact hp he
          · exact hv he
        rw [filter_cons_true (fun p => decide (p.1 ∉ v)) (pk, pl) rest (by simp [hv]),
          filter_cons_true (fun p => decide (p.1 ∉ n :: v)) (pk, pl) rest hcond]
        simp only [List.map_cons, List.sum_cons]
        omega

theorem adjWeight_expand (g : Digraph) (v : List N) (n : N) (hn : n ∉ v) :
    adjWeight g (n :: v) + (adjList g n).length ≤ adjWeight g v :=
  weight_filter_expand g.adj v n hn

theorem adjWeight_le_total (g : Digraph) (v : List N) :
    adjWeight g v ≤ totalAdjLen g := by
  unfold adjWeight totalAdjLen
  induction g.adj with
  | nil => simp
  | cons p rest ih =>
    by_cases hp : p.1 ∈ v
    · rw [filter_cons_false _ _ _ (by simp [hp])]
      simp only [List.map_cons, List.sum_cons]
      omega
    · rw [filter_cons_true _ _ _ (by simp [hp])]
      simp only [List.map_cons, List.sum_cons]
      omega

/-- With fuel exceeding the current stack length plus the expansion budget,
the `dfs` loop runs to completion. -/
theorem dfsLoop_isSome (g : Digraph) :
    ∀ fuel stack visited path,
      stack.length + adjWeight g visited + 1 ≤ fuel →
      (dfsLoop g fuel stack visited path).isSome = true := by
  intro fuel
  induction fuel with
  | zero =>
    intro stack visited path hle
    omega
  | succ fuel ih =>
    intro stack visited path hle
    cases stack with
    | nil => simp [dfsLoop]
    | cons node rest =>
      by_cases hv : node ∈ visited
      · rw [show dfsLoop g (fuel + 1) (node :: rest) visited path
            = dfsLoop g fuel rest visited path by simp [dfsLoop, hv]]
        refine ih rest visited path ?_
        simp only [List.length_cons] at hle
        omega
      · rw [show dfsLoop g (fuel + 1) (node :: rest) visited path
            = dfsLoop g fuel
                ((((sortNodes (adjList g node)).reverse).filter
                  (fun w => decide (w ∉ visited))).reverse ++ rest)
                (node :: visited) (path ++ [node]) by simp [dfsLoop, hv]]
        rw [dfs_push_eq]
        refine ih _ (node :: visited) (path ++ [node]) ?_
        have hpush : ((sortNodes (adjList g node)).filter
            (fun w => decide (w ∉ visited))).length ≤ (adjList g node).length := by
          calc ((sortNodes (adjList g node)).filter
              (fun w => decide (w ∉ visited))).length
              ≤ (sortNodes (adjList g node)).length := List.length_filter_le _ _
            _ = (adjList g node).length := List.length_insertionSort _ _
        have hexp := adjWeight_expand g visited node hv
        simp only [List.length_append, List.length_cons] at hle ⊢
        omega

/-- `dfs` on a present start node runs its loop to completion. -/
theorem dfs_runs (g : Digraph) (s : N) (h : hasNode g s = true) :
    ∃ v' p', dfsLoop g (dfsFuel g s) (sortNodes (adjList g s)) [s] [] = some (v', p')
      ∧ dfs g s = Except.ok p' ∧ dfsRun g s = p' := by
  have hsome := dfsLoop_isSome g (dfsFuel g s) (sortNodes (adjList g s)) [s] []
    (by
      have h1 : (sortNodes (adjList g s)).length = (adjList g s).length :=
        List.length_insertionSort _ _
      have h2 : adjWeight g [s] ≤ totalAdjLen g := adjWeight_le_total g [s]
      unfold dfsFuel
      omega)
  rcases hres : dfsLoop g (dfsFuel g s) (sortNodes (adjList g s)) [s] [] with _ | ⟨v', p'⟩
  · rw [hres] at hsome
    simp at hsome
  · refine ⟨v', p', rfl, ?_, ?_⟩
    · simp [dfs, h, hres]
    · simp [dfsRun, dfs, h, hres]

/-! ## The meaning of a `dfs` result -/

/-- A successor-closed node set containing a node contains everything
reachable from it. -/
theorem reach_mem_of_closed (g : Digraph) (V : List N)
    (hcl : ∀ u ∈ V, ∀ w, Edge g u w → w ∈ V) (s x : N) (hs : s ∈ V)
    (hr : ReachStar g s x) : x ∈ V := by
  induction hr with
  | refl => exact hs
  | tail h1 h2 ih => exact hcl _ ih _ h2

/-- Full characterisation of a `dfs` result: the returned path holds exactly
the nodes reachable from the start via one or more edges, excluding the
start node itself. -/
theorem dfsRun_mem_iff (g : Digraph) (s : N) (h : hasNode g s = true) (x : N) :
    x ∈ dfsRun g s ↔ (ReachPlus g s x ∧ x ≠ s) := by
  obtain ⟨v', p', hloop, hdfs, hrun⟩ := dfs_runs g s h
  obtain ⟨c1, c2, c3, c4, c5, c6⟩ := dfsLoop_spec g [s] s (dfsFuel g s)
    (sortNodes (adjList g s)) [s] [] v' p' hloop
    (by intro x; simp)
    (by intro x hx; simp)
    (by
      intro u hu w hw
      simp only [List.mem_singleton] at hu
      subst hu
      right
      simpa [sortNodes, Edge] using hw)
    (by
      intro y hy
      have hadj : y ∈ adjList g s := by simpa [sortNodes] using hy
      exact Relation.TransGen.single hadj)
    (by intro y hy; simp at hy)
  rw [hrun]
  constructor
  · intro hx
    refine ⟨c4 x hx, ?_⟩
    intro he
    subst he
    exact c2 x (by simp) hx
  · rintro ⟨hreach, hne⟩
    have hx' : x ∈ v' := by
      have hs' : s ∈ v' := c5 s (by simp)
      exact reach_mem_of_closed g v' c3 s x hs'
        (Relation.TransGen.to_reflTransGen hreach)
    rcases (c1 x).mp hx' with h1 | h1
    · simp only [List.mem_singleton] at h1
      exact absurd h1 hne
    · exact h1

/-! ## Acyclicity is preserved by guarded insertion (claim C3) -/

/-- Paths in a graph extended by one edge `a→b` decompose: either the path
exists in the original graph, or it reaches `a` in the original graph and
continues from `b`. -/
theorem reachStar_add_edge_decompose (g : Digraph) (a b : N) (kw : Attrs) :
    ∀ x y, ReachStar (add_edge g a b kw) x y →
      ReachStar g x y ∨ (ReachStar g x a ∧ ReachStar g b y) := by
  intro x y h
  induction h using Relation.ReflTransGen.head_induction_on with
  | refl => exact Or.inl Relation.ReflTransGen.refl
  | head hstep htail ih =>
    rename_i u c
    rcases (Edge_add_edge g a b kw u c).mp hstep with he | ⟨rfl, rfl⟩
    · rcases ih with hl | ⟨h1, h2⟩
      · exact Or.inl (Relation.ReflTransGen.head he hl)
      · exact Or.inr ⟨Relation.ReflTransGen.head he h1, h2⟩
    · rcases ih with hl | ⟨h1, h2⟩
      · exact Or.inr ⟨Relation.ReflTransGen.refl, hl⟩
      · exact Or.inr ⟨Relation.ReflTransGen.refl, h2⟩

/-- Inserting `a→b` into an acyclic graph keeps it acyclic, provided `a ≠ b`
and `a` is not already reachable from `b`. -/
theorem acyclic_add_edge (g : Digraph) (a b : N) (kw : Attrs)
    (hacyc : Acyclic g) (hne : a ≠ b) (hnr : ¬ ReachPlus g b a) :
    Acyclic (add_edge g a b kw) := by
  intro n hn
  rcases Relation.TransGen.head'_iff.mp hn with ⟨c, hnc, hcn⟩
  rcases (Edge_add_edge g a b kw n c).mp hnc with he | ⟨rfl, rfl⟩
  · rcases reachStar_add_edge_decompose g a b kw c n hcn with hpath | ⟨h1, h2⟩
    · exact hacyc n (Relation.TransGen.head' he hpath)
    · exact hnr (Relation.TransGen.trans_left (Relation.TransGen.tail' h2 he) h1)
  · rcases reachStar_add_edge_decompose g n c kw c n hcn with hpath | ⟨h1, h2⟩
    · rcases Relation.ReflTransGen.cases_head hpath with heq | ⟨c', hc1, hc2⟩
      · exact hne heq.symm
      · exact hnr (Relation.TransGen.head' hc1 hc2)
    · rcases Relation.ReflTransGen.cases_head h1 with heq | ⟨c', hc1, hc2⟩
      · exact hne heq.symm
      · exact hnr (Relation.TransGen.head' hc1 hc2)

/-- The empty store is acyclic. -/
theorem acyclic_empty : Acyclic emptyDigraph := by
  intro n hn
  rcases Relation.TransGen.head'_iff.mp hn with ⟨c, hnc, -⟩
  simp [Edge, adjList, emptyDigraph, getA] at hnc

/-- `add_node` never changes the edge relation, so it preserves acyclicity. -/
theorem acyclic_add_node (g : Digraph) (n : N) (a : Option Int)
    (h : Acyclic g) : Acyclic (add_node g n a) := by
  intro x hx
  exact h x (Relation.TransGen.mono
    (fun u v hv => (Edge_add_node g n a u v).mp hv) hx)

/-- One `DAG.add_edge` call — accepted or rejected — preserves acyclicity of
the store. -/
theorem acyclic_dag_add_edge (g : Digraph) (s d : N) (kw : Attrs)
    (hacyc : Acyclic g) : Acyclic (DAG.add_edge g s d kw).graph := by
  have hacyc1 : Acyclic (add_node (add_node g s none) d none) :=
    acyclic_add_node _ _ _ (acyclic_add_node _ _ _ hacyc)
  by_cases hc : s = d ∨ s ∈ dfsRun (add_node (add_node g s none) d none) d
  · have hg : (DAG.add_edge g s d kw).graph = add_node (add_node g s none) d none := by
      unfold DAG.add_edge
      rw [if_pos hc]
    rw [hg]
    exact hacyc1
  · have hg : (DAG.add_edge g s d kw).graph =
        StudentGraph.add_edge (add_node (add_node g s none) d none) s d kw := by
      unfold DAG.add_edge
      rw [if_neg hc]
    rw [hg]
    push_neg at hc
    obtain ⟨hne, hnm⟩ := hc
    have hd : hasNode (add_node (add_node g s none) d none) d = true :=
      hasNode_add_node_self _ _ _
    have hnr : ¬ ReachPlus (add_node (add_node g s none) d none) d s := by
      intro hr
      exact hnm ((dfsRun_mem_iff _ d hd s).mpr ⟨hr, hne⟩)
    exact acyclic_add_edge _ s d kw hacyc1 hne hnr

theorem runDag_acyclic_aux :
    ∀ (cmds : List (N × N × Attrs)) (g : Digraph), Acyclic g →
      Acyclic (cmds.foldl (fun g c => (DAG.add_edge g c.1 c.2.1 c.2.2).graph) g) := by
  intro cmds
  induction cmds with
  | nil => exact fun g h => h
  | cons c rest ih =>
    intro g h
    simp only [List.foldl_cons]
    exact ih _ (acyclic_dag_add_edge g c.1 c.2.1 c.2.2 h)

/-- C3: after any sequence of `DAG.add_edge` calls on a fresh DAG instance —
counting both the calls that succeed and those that raise — the edge
relation holds no cycle: no node is reachable from itself via one or more
edges. -/
theorem runDag_acyclic (cmds : List (N × N × Attrs)) : Acyclic (runDag cmds) :=
  runDag_acyclic_aux cmds emptyDigraph acyclic_empty

/-! ## Claim C2: exactly when `DAG.add_edge` raises -/

/-- C2: `DAG.add_edge` raises exactly on a self-loop or when the source is
already reachable from the target in the pre-insertion graph; otherwise it
delegates to the base store's insertion on the endpoint-ensured store,
recording the given attribute bag for the new edge. -/
theorem dag_add_edge_rejects_iff_cycle (g : Digraph) (s d : N) (kw : Attrs) :
    ((DAG.add_edge g s d kw).cycleError = true ↔ (s = d ∨ ReachPlus g d s)) ∧
    ((DAG.add_edge g s d kw).cycleError = false →
      (DAG.add_edge g s d kw).graph =
        StudentGraph.add_edge (add_node (add_node g s none) d none) s d kw ∧
      getA (DAG.add_edge g s d kw).graph.edges (s, d) = some kw ∧
      Edge (DAG.add_edge g s d kw).graph s d) := by
  have hd : hasNode (add_node (add_node g s none) d none) d = true :=
    hasNode_add_node_self _ _ _
  have hreach : ∀ x y, ReachPlus (add_node (add_node g s none) d none) x y ↔
      ReachPlus g x y := by
    intro x y
    constructor
    · exact Relation.TransGen.mono
        (fun u v hv => (Edge_add_node _ _ _ u v).mp
          ((Edge_add_node _ _ _ u v).mp hv))
    · exact Relation.TransGen.mono
        (fun u v hv => (Edge_add_node _ _ _ u v).mpr
          ((Edge_add_node _ _ _ u v).mpr hv))
  have hcond : (s = d ∨ s ∈ dfsRun (add_node (add_node g s none) d none) d)
      ↔ (s = d ∨ ReachPlus g d s) := by
    constructor
    · rintro (rfl | hmem)
      · exact Or.inl rfl
      · exact Or.inr ((hreach d s).mp ((dfsRun_mem_iff _ d hd s).mp hmem).1)
    · rintro (rfl | hr)
      · exact Or.inl rfl
      · by_cases he : s = d
        · exact Or.inl he
        · exact Or.inr ((dfsRun_mem_iff _ d hd s).mpr ⟨(hreach d s).mpr hr, he⟩)
  by_cases hc : s = d ∨ s ∈ dfsRun (add_node (add_node g s none) d none) d
  · have herr : (DAG.add_edge g s d kw).cycleError = true := by
      unfold DAG.add_edge
      rw [if_pos hc]
    refine ⟨by simp [herr, hcond.mp hc], ?_⟩
    intro hfalse
    rw [herr] at hfalse
    exact absurd hfalse (by simp)
  · have hg : (DAG.add_edge g s d kw).graph =
        StudentGraph.add_edge (add_node (add_node g s none) d none) s d kw := by
      unfold DAG.add_edge
      rw [if_neg hc]
    have herr : (DAG.add_edge g s d kw).cycleError = false := by
      unfold DAG.add_edge
      rw [if_neg hc]
    constructor
    · rw [herr]
      simp only [Bool.false_eq_true, false_iff]
      exact fun hcy => hc (hcond.mpr hcy)
    · intro _
      refine ⟨hg, ?_, ?_⟩
      · rw [hg, edges_add_edge, getA_setA_self]
      · rw [hg]
        exact (Edge_add_edge _ s d kw s d).mpr (Or.inr ⟨rfl, rfl⟩)

/-! ## BFS loop invariants -/

/-- What one neighbour-enqueueing pass does: it appends to the queue a
duplicate-free block of previously unvisited neighbours, marks exactly that
block visited, and afterwards every neighbour of the expanded node is
visited. -/
theorem bfsStep_spec (l : List N) :
    ∀ visited queue, ∃ added : List N,
      (bfsStep l visited queue).1 = added.reverse ++ visited ∧
      (bfsStep l visited queue).2 = queue ++ added ∧
      (∀ x ∈ added, x ∈ l ∧ x ∉ visited) ∧
      (∀ x ∈ l, x ∈ (bfsStep l visited queue).1) ∧
      (∀ x, x ∈ (bfsStep l visited queue).1 ↔ (x ∈ visited ∨ x ∈ added)) ∧
      added.Nodup := by
  induction l with
  | nil =>
    intro visited queue
    exact ⟨[], rfl, by simp [bfsStep], by simp, by simp,
      by intro x; simp [bfsStep], List.nodup_nil⟩
  | cons w ws ih =>
    intro visited queue
    by_cases hw : w ∈ visited
    · have hstep : bfsStep (w :: ws) visited queue = bfsStep ws visited queue := by
        simp [bfsStep, hw]
      obtain ⟨added, h1, h2, h3, h4, h5, h6⟩ := ih visited queue
      refine ⟨added, by rw [hstep]; exact h1, by rw [hstep]; exact h2, ?_, ?_, ?_, h6⟩
      · exact fun x hx => ⟨List.mem_cons_of_mem _ (h3 x hx).1, (h3 x hx).2⟩
      · intro x hx
        rw [hstep]
        rcases List.mem_cons.mp hx with rfl | hx'
        · exact (h5 x).mpr (Or.inl hw)
        · exact h4 x hx'
      · intro x
        rw [hstep]
        exact h5 x
    · have hstep : bfsStep (w :: ws) visited queue
          = bfsStep ws (w :: visited) (queue ++ [w]) := by
        simp [bfsStep, hw]
      obtain ⟨added, h1, h2, h3, h4, h5, h6⟩ := ih (w :: visited) (queue ++ [w])
      refine ⟨w :: added, ?_, ?_, ?_, ?_, ?_, ?_⟩
      · rw [hstep, h1]
        simp
      · rw [hstep, h2]
        simp
      · intro x hx
        rcases List.mem_cons.mp hx with rfl | hx'
        · exact ⟨List.mem_cons_self _ _, hw⟩
        · obtain ⟨hin, hnin⟩ := h3 x hx'
          exact ⟨List.mem_cons_of_mem _ hin,
            fun hv => hnin (List.mem_cons_of_mem _ hv)⟩
      · intro x hx
        rw [hstep]
        rcases List.mem_cons.mp hx with rfl | hx'
        · exact (h5 x).mpr (Or.inl (List.mem_cons_self _ _))
        · exact h4 x hx'
      · intro x
        rw [hstep, h5 x]
        simp only [List.mem_cons]
        tauto
      · refine List.nodup_cons.mpr ⟨?_, h6⟩
        intro hwadd
        exact (h3 w hwadd).2 (List.mem_cons_self _ _)

/-- The master invariant of the drained `bfs` loop: the visited set is the
start plus the queue plus the yielded prefix, every yielded node's (and the
start's) successors are visited, queue and yield list hold only nodes
reachable from the start, and the start — visited from the outset — never
enters the queue or the yield list. -/
theorem bfsLoop_spec (g : Digraph) (s : N) :
    ∀ fuel queue visited out v' out',
      bfsLoop g fuel queue visited out = some (v', out') →
      (∀ x, x ∈ visited ↔ (x = s ∨ x ∈ queue ∨ x ∈ out)) →
      (∀ u, (u = s ∨ u ∈ out) → ∀ w, Edge g u w → w ∈ visited) →
      (∀ x ∈ queue, ReachPlus g s x) →
      (∀ x ∈ out, ReachPlus g s x) →
      s ∉ queue → s ∉ out →
      ((∀ x, x ∈ v' ↔ (x = s ∨ x ∈ out')) ∧
       (∀ u, (u = s ∨ u ∈ out') → ∀ w, Edge g u w → w ∈ v') ∧
       (∀ x ∈ out', ReachPlus g s x) ∧ s ∉ out') := by
  intro fuel
  induction fuel with
  | zero =>
    intro queue visited out v' out' hrun h1 h2 h3 h4 h5 h6
    cases queue with
    | nil =>
      simp only [bfsLoop, Option.some.injEq, Prod.mk.injEq] at hrun
      obtain ⟨rfl, rfl⟩ := hrun
      exact ⟨fun x => by rw [h1 x]; simp, h2, h4, h6⟩
    | cons node rest => simp [bfsLoop] at hrun
  | succ fuel ih =>
    intro queue visited out v' out' hrun h1 h2 h3 h4 h5 h6
    cases queue with
    | nil =>
      simp only [bfsLoop, Option.some.injEq, Prod.mk.injEq] at hrun
      obtain ⟨rfl, rfl⟩ := hrun
      exact ⟨fun x => by rw [h1 x]; simp, h2, h4, h6⟩
    | cons node rest =>
      rw [show bfsLoop g (fuel + 1) (node :: rest) visited out
          = bfsLoop g fuel (bfsStep (sortNodes (adjList g node)) visited rest).2
              (bfsStep (sortNodes (adjList g node)) visited rest).1
              (out ++ [node]) by simp [bfsLoop]] at hrun
      obtain ⟨added, e1, e2, e3, e4, e5, e6⟩ :=
        bfsStep_spec (sortNodes (adjList g node)) visited rest
      rw [e1, e2] at hrun
      have hnode : ReachPlus g s node := h3 node (List.mem_cons_self _ _)
      have haddmem : ∀ x ∈ added, x ∈ adjList g node := by
        intro x hx
        have := (e3 x hx).1
        simpa [sortNodes] using this
      refine ih (rest ++ added) (added.reverse ++ visited) (out ++ [node])
        v' out' hrun ?_ ?_ ?_ ?_ ?_ ?_
      · intro x
        simp only [List.mem_append, List.mem_reverse, List.mem_singleton]
        constructor
        · intro hx
          rcases hx with hx | hx
          · exact Or.inr (Or.inl (Or.inr hx))
          · rcases (h1 x).mp hx with h | h | h
            · exact Or.inl h
            · rcases List.mem_cons.mp h with rfl | h
              · exact Or.inr (Or.inr (Or.inr rfl))
              · exact Or.inr (Or.inl (Or.inl h))
            · exact Or.inr (Or.inr (Or.inl h))
        · intro hx
          rcases hx with rfl | hx | hx
          · exact Or.inr ((h1 x).mpr (Or.inl rfl))
          · rcases hx with hx | hx
            · exact Or.inr ((h1 x).mpr (Or.inr (Or.inl (List.mem_cons_of_mem _ hx))))
            · exact Or.inl hx
          · rcases hx with hx | rfl
            · exact Or.inr ((h1 x).mpr (Or.inr (Or.inr hx)))
            · exact Or.inr ((h1 x).mpr (Or.inr (Or.inl (List.mem_cons_self _ _))))
      · intro u hu w hw
        simp only [List.mem_append, List.mem_reverse]
        rcases hu with rfl | hu
        · exact Or.inr (h2 u (Or.inl rfl) w hw)
        · rcases List.mem_append.mp hu with hu | hu
          · exact Or.inr (h2 u (Or.inr hu) w hw)
          · simp only [List.mem_singleton] at hu
            subst hu
            have : w ∈ (bfsStep (sortNodes (adjList g u)) visited rest).1 :=
              e4 w (by simpa [sortNodes, Edge] using hw)
            rw [e1] at this
            simpa using this
      · intro x hx
        rcases List.mem_append.mp hx with hx | hx
        · exact h3 x (List.mem_cons_of_mem _ hx)
        · exact Relation.TransGen.tail hnode (haddmem x hx)
      · intro x hx
        rcases List.mem_append.mp hx with hx | hx
        · exact h4 x hx
        · simp only [List.mem_singleton] at hx
          subst hx
          exact hnode
      · intro hs
        rcases List.mem_append.mp hs with hs | hs
        · exact h5 (List.mem_cons_of_mem _ hs)
        · exact (e3 s hs).2 ((h1 s).mpr (Or.inl rfl))
      · intro hs
        rcases List.mem_append.mp hs with hs | hs
        · exact h6 hs
        · simp only [List.mem_singleton] at hs
          exact h5 (hs ▸ List.mem_cons_self _ _)

/-! ## BFS fuel sufficiency -/

theorem mem_allAdjValues (g : Digraph) (n x : N) (h : x ∈ adjList g n) :
    x ∈ allAdjValues g := by
  unfold adjList at h
  rcases he : getA g.adj n with _ | l
  · rw [he] at h
    simp at h
  · rw [he] at h
    simp only [Option.getD_some] at h
    unfold allAdjValues
    rw [List.mem_flatten]
    exact ⟨l, List.mem_map.mpr ⟨(n, l), getA_mem _ _ _ he, rfl⟩, h⟩

/-- With fuel exceeding the queue length plus the number of not-yet-visited
possible enqueue targets, the `bfs` loop drains completely. -/
theorem bfsLoop_isSome (g : Digraph) :
    ∀ fuel queue visited out,
      queue.length + ((allAdjValues g).toFinset \ visited.toFinset).card + 1 ≤ fuel →
      (bfsLoop g fuel queue visited out).isSome = true := by
  intro fuel
  induction fuel with
  | zero =>
    intro queue visited out hle
    omega
  | succ fuel ih =>
    intro queue visited out hle
    cases queue with
    | nil => simp [bfsLoop]
    | cons node rest =>
      rw [show bfsLoop g (fuel + 1) (node :: rest) visited out
          = bfsLoop g fuel (bfsStep (sortNodes (adjList g node)) visited rest).2
              (bfsStep (sortNodes (adjList g node)) visited rest).1
              (out ++ [node]) by simp [bfsLoop]]
      obtain ⟨added, e1, e2, e3, e4, e5, e6⟩ :=
        bfsStep_spec (sortNodes (adjList g node)) visited rest
      rw [e1, e2]
      refine ih (rest ++ added) (added.reverse ++ visited) (out ++ [node]) ?_
      have hsub : added.toFinset ⊆ (allAdjValues g).toFinset \ visited.toFinset := by
        intro x hx
        rw [List.mem_toFinset] at hx
        rw [Finset.mem_sdiff, List.mem_toFinset, List.mem_toFinset]
        refine ⟨mem_allAdjValues g node x ?_, (e3 x hx).2⟩
        have := (e3 x hx).1
        simpa [sortNodes] using this
      have hvis' : (added.reverse ++ visited).toFinset
          = added.toFinset ∪ visited.toFinset := by
        rw [List.toFinset_append, List.toFinset_reverse]
      have hcard : ((allAdjValues g).toFinset \ (added.reverse ++ visited).toFinset).card
          = ((allAdjValues g).toFinset \ visited.toFinset).card - added.length := by
        rw [hvis']
        have hsd : (allAdjValues g).toFinset \ (added.toFinset ∪ visited.toFinset)
            = ((allAdjValues g).toFinset \ visited.toFinset) \ added.toFinset := by
          ext x
          simp only [Finset.mem_sdiff, Finset.mem_union]
          tauto
        rw [hsd, Finset.card_sdiff hsub, List.toFinset_card_of_nodup e6]
      have hk : added.length ≤ ((allAdjValues g).toFinset \ visited.toFinset).card := by
        calc added.length = added.toFinset.card := (List.toFinset_card_of_nodup e6).symm
          _ ≤ _ := Finset.card_le_card hsub
      simp only [List.length_append, List.length_cons] at hle ⊢
      omega

/-- `bfs` on a present start node drains its loop completely. -/
theorem bfs_runs (g : Digraph) (s : N) (h : hasNode g s = true) :
    ∃ v' out', bfsLoop g (bfsFuel g s) (sortNodes (adjList g s))
        (s :: sortNodes (adjList g s)) [] = some (v', out')
      ∧ bfs g s = Except.ok out' ∧ bfsRun g s = out' := by
  have hsome := bfsLoop_isSome g (bfsFuel g s) (sortNodes (adjList g s))
    (s :: sortNodes (adjList g s)) []
    (by
      have h1 : (sortNodes (adjList g s)).length = (adjList g s).length :=
        List.length_insertionSort _ _
      have h2 : ((allAdjValues g).toFinset \ (s :: sortNodes (adjList g s)).toFinset).card
          ≤ (allAdjValues g).length := by
        calc ((allAdjValues g).toFinset \ (s :: sortNodes (adjList g s)).toFinset).card
            ≤ (allAdjValues g).toFinset.card :=
              Finset.card_le_card (Finset.sdiff_subset)
          _ ≤ (allAdjValues g).length := List.toFinset_card_le _
      unfold bfsFuel
      omega)
  rcases hres : bfsLoop g (bfsFuel g s) (sortNodes (adjList g s))
      (s :: sortNodes (adjList g s)) [] with _ | ⟨v', out'⟩
  · rw [hres] at hsome
    simp at hsome
  · refine ⟨v', out', rfl, ?_, ?_⟩
    · simp [bfs, h, hres]
    · simp [bfsRun, bfs, h, hres]

/-- Full characterisation of a drained `bfs`: provided the start node has no
self-loop, the yielded nodes are exactly those reachable from the start via
one or more edges, excluding the start itself. -/
theorem bfsRun_mem_iff (g : Digraph) (s : N) (h : hasNode g s = true)
    (hsl : s ∉ adjList g s) (x : N) :
    x ∈ bfsRun g s ↔ (ReachPlus g s x ∧ x ≠ s) := by
  obtain ⟨v', out', hloop, hbfs, hrun⟩ := bfs_runs g s h
  obtain ⟨c1, c2, c3, c4⟩ := bfsLoop_spec g s (bfsFuel g s)
    (sortNodes (adjList g s)) (s :: sortNodes (adjList g s)) [] v' out' hloop
    (by intro x; simp [List.mem_cons])
    (by
      rintro u (rfl | hu) w hw
      · exact List.mem_cons_of_mem _ (by simpa [sortNodes, Edge] using hw)
      · simp at hu)
    (by
      intro y hy
      have hadj : y ∈ adjList g s := by simpa [sortNodes] using hy
      exact Relation.TransGen.single hadj)
    (by intro y hy; simp at hy)
    (by
      intro hs
      exact hsl (by simpa [sortNodes] using hs))
    (by simp)
  rw [hrun]
  constructor
  · intro hx
    refine ⟨c3 x hx, ?_⟩
    intro he
    subst he
    exact c4 hx
  · rintro ⟨hreach, hne⟩
    have hcl : ∀ u ∈ v', ∀ w, Edge g u w → w ∈ v' := by
      intro u hu w hw
      exact c2 u ((c1 u).mp hu) w hw
    have hx' : x ∈ v' := by
      have hs' : s ∈ v' := (c1 s).mpr (Or.inl rfl)
      exact reach_mem_of_closed g v' hcl s x hs'
        (Relation.TransGen.to_reflTransGen hreach)
    rcases (c1 x).mp hx' with h1 | h1
    · exact absurd h1 hne
    · exact h1

/-! ## Claims C4 and C5 (amended): traversal exclusion and agreement -/

/-- C4 amended: `dfs` never returns its start node; the drained `bfs` never
yields its start node provided the start node carries no self-loop (with a
self-loop the seed queue holds the start, which the loop then yields — see
the counterexample). -/
theorem traversals_exclude_start (g : Digraph) (s : N) (h : hasNode g s = true) :
    s ∉ dfsRun g s ∧ (s ∉ adjList g s → s ∉ bfsRun g s) := by
  constructor
  · intro hs
    exact ((dfsRun_mem_iff g s h s).mp hs).2 rfl
  · intro hsl hs
    exact ((bfsRun_mem_iff g s h hsl s).mp hs).2 rfl

/-- C4 witness: the exclusion at a concrete two-edge graph. -/
theorem traversals_exclude_start_witness :
    hasNode (add_edge (add_edge emptyDigraph 0 1 []) 1 2 []) 0 = true ∧
    (0 ∉ dfsRun (add_edge (add_edge emptyDigraph 0 1 []) 1 2 []) 0 ∧
     (0 ∉ adjList (add_edge (add_edge emptyDigraph 0 1 []) 1 2 []) 0 →
      0 ∉ bfsRun (add_edge (add_edge emptyDigraph 0 1 []) 1 2 []) 0)) :=
  ⟨by decide, traversals_exclude_start (add_edge (add_edge emptyDigraph 0 1 []) 1 2 []) 0
    (by decide)⟩

/-- C5 amended: provided the start node carries no self-loop, the node set
returned by `dfs` equals the node set yielded by fully draining `bfs` (both
are the nodes reachable from the start, excluding the start). -/
theorem dfs_bfs_same_set (g : Digraph) (s : N) (h : hasNode g s = true)
    (hsl : s ∉ adjList g s) : ∀ x, x ∈ dfsRun g s ↔ x ∈ bfsRun g s := by
  intro x
  rw [dfsRun_mem_iff g s h x, bfsRun_mem_iff g s h hsl x]

/-- C5 witness: traversal agreement at a concrete two-edge graph. -/
theorem dfs_bfs_same_set_witness :
    hasNode (add_edge (add_edge emptyDigraph 0 1 []) 0 2 []) 0 = true ∧
    0 ∉ adjList (add_edge (add_edge emptyDigraph 0 1 []) 0 2 []) 0 ∧
    (∀ x, x ∈ dfsRun (add_edge (add_edge emptyDigraph 0 1 []) 0 2 []) 0
        ↔ x ∈ bfsRun (add_edge (add_edge emptyDigraph 0 1 []) 0 2 []) 0) :=
  ⟨by decide, by decide,
    dfs_bfs_same_set (add_edge (add_edge emptyDigraph 0 1 []) 0 2 []) 0
      (by decide) (by decide)⟩

/-! ## Topological sort: unfolding equations -/

theorem visitFuel_zero (g : Digraph) (n : N) (s : TSState) :
    visitFuel g 0 n s = none := by
  unfold visitFuel
  rfl

theorem visitFuel_succ (g : Digraph) (fuel : Nat) (n : N) (s : TSState) :
    visitFuel g (fuel + 1) n s =
      if n ∈ s.visited then some s
      else
        match visitListFuel g fuel (sortNodes (adjList g n)) ⟨n :: s.visited, s.order⟩ with
        | none => none
        | some s' => some ⟨s'.visited, n :: s'.order⟩ := by
  rw [visitFuel]

theorem visitListFuel_nil (g : Digraph) (fuel : Nat) (s : TSState) :
    visitListFuel g fuel [] s = some s := by
  rw [visitListFuel]

theorem visitListFuel_cons (g : Digraph) (fuel : Nat) (m : N) (ms : List N)
    (s : TSState) :
    visitListFuel g fuel (m :: ms) s =
      match visitFuel g fuel m s with
      | none => none
      | some s' => visitListFuel g fuel ms s' := by
  rw [visitListFuel]

/-! ## Topological sort: the visited set only grows -/

theorem visit_mono (g : Digraph) :
    ∀ fuel,
      (∀ n s s', visitFuel g fuel n s = some s' → ∀ x ∈ s.visited, x ∈ s'.visited)
      ∧ (∀ l s s', visitListFuel g fuel l s = some s' →
          ∀ x ∈ s.visited, x ∈ s'.visited) := by
  intro fuel
  induction fuel with
  | zero =>
    constructor
    · intro n s s' h
      rw [visitFuel_zero] at h
      exact absurd h (by simp)
    · intro l
      induction l with
      | nil =>
        intro s s' h
        rw [visitListFuel_nil, Option.some.injEq] at h
        subst h
        exact fun x hx => hx
      | cons m ms ihl =>
        intro s s' h
        rw [visitListFuel_cons, visitFuel_zero] at h
        exact absurd h (by simp)
  | succ fuel ih =>
    obtain ⟨ihv, ihl⟩ := ih
    have hvisit : ∀ n s s', visitFuel g (fuel + 1) n s = some s' →
        ∀ x ∈ s.visited, x ∈ s'.visited := by
      intro n s s' h
      rw [visitFuel_succ] at h
      by_cases hn : n ∈ s.visited
      · rw [if_pos hn, Option.some.injEq] at h
        subst h
        exact fun x hx => hx
      · rw [if_neg hn] at h
        rcases hres : visitListFuel g fuel (sortNodes (adjList g n))
            ⟨n :: s.visited, s.order⟩ with _ | s2
        · rw [hres] at h
          exact absurd h (by simp)
        · rw [hres, Option.some.injEq] at h
          subst h
          intro x hx
          exact ihl _ _ _ hres x (List.mem_cons_of_mem _ hx)
    refine ⟨hvisit, ?_⟩
    intro l
    induction l with
    | nil =>
      intro s s' h
      rw [visitListFuel_nil, Option.some.injEq] at h
      subst h
      exact fun x hx => hx
    | cons m ms ihll =>
      intro s s' h
      rw [visitListFuel_cons] at h
      rcases hm : visitFuel g (fuel + 1) m s with _ | s1
      · rw [hm] at h
        exact absurd h (by simp)
      · rw [hm] at h
        intro x hx
        exact ihll s1 s' h x (hvisit m s s1 hm x hx)

/-! ## Topological sort: fuel sufficiency -/

theorem ts_card_mono (g : Digraph) (v v' : List N) (h : ∀ x ∈ v, x ∈ v') :
    ((keysList g).toFinset \ v'.toFinset).card
      ≤ ((keysList g).toFinset \ v.toFinset).card := by
  apply Finset.card_le_card
  apply Finset.sdiff_subset_sdiff (Finset.Subset.refl _)
  intro x hx
  rw [List.mem_toFinset] at hx ⊢
  exact h x hx

theorem ts_card_drop (g : Digraph) (v : List N) (n : N)
    (hk : n ∈ keysList g) (hv : n ∉ v) :
    ((keysList g).toFinset \ (n :: v).toFinset).card + 1
      ≤ ((keysList g).toFinset \ v.toFinset).card := by
  rw [List.toFinset_cons, Finset.sdiff_insert]
  have hmem : n ∈ (keysList g).toFinset \ v.toFinset := by
    rw [Finset.mem_sdiff, List.mem_toFinset, List.mem_toFinset]
    exact ⟨hk, hv⟩
  rw [Finset.card_erase_of_mem hmem]
  have : 1 ≤ ((keysList g).toFinset \ v.toFinset).card :=
    Finset.card_pos.mpr ⟨n, hmem⟩
  omega

theorem visit_isSome (g : Digraph) :
    ∀ fuel,
      (∀ n s, ((keysList g).toFinset \ s.visited.toFinset).card + 2 ≤ fuel →
        (visitFuel g fuel n s).isSome = true)
      ∧ (∀ l s, ((keysList g).toFinset \ s.visited.toFinset).card + 2 ≤ fuel →
        (visitListFuel g fuel l s).isSome = true) := by
  intro fuel
  induction fuel with
  | zero =>
    constructor
    · intro n s hle
      omega
    · intro l s hle
      omega
  | succ fuel ih =>
    obtain ⟨ihv, ihl⟩ := ih
    have hvisit : ∀ n s, ((keysList g).toFinset \ s.visited.toFinset).card + 2 ≤ fuel + 1 →
        (visitFuel g (fuel + 1) n s).isSome = true := by
      intro n s hle
      rw [visitFuel_succ]
      by_cases hn : n ∈ s.visited
      · rw [if_pos hn]
        rfl
      · rw [if_neg hn]
        by_cases hk : n ∈ keysList g
        · have hdrop := ts_card_drop g s.visited n hk hn
          have hrec := ihl (sortNodes (adjList g n)) ⟨n :: s.visited, s.order⟩
            (by
              simp only [TSState.visited] at hdrop ⊢
              omega)
          rcases hres : visitListFuel g fuel (sortNodes (adjList g n))
              ⟨n :: s.visited, s.order⟩ with _ | s2
          · rw [hres] at hrec
            simp at hrec
          · rfl
        · have hempty : adjList g n = [] := by
            unfold adjList
            rw [(getA_eq_none_iff g.adj n).mpr hk]
            rfl
          rw [hempty, show sortNodes [] = [] from rfl, visitListFuel_nil]
          rfl
    refine ⟨hvisit, ?_⟩
    intro l
    induction l with
    | nil =>
      intro s hle
      rw [visitListFuel_nil]
      rfl
    | cons m ms ihll =>
      intro s hle
      rw [visitListFuel_cons]
      have hm := hvisit m s hle
      rcases hres : visitFuel g (fuel + 1) m s with _ | s1
      · rw [hres] at hm
        simp at hm
      · have hmono := (visit_mono g (fuel + 1)).1 m s s1 hres
        show (visitListFuel g (fuel + 1) ms s1).isSome = true
        refine ihll s1 ?_
        have := ts_card_mono g s.visited s1.visited hmono
        omega

/-- `top_sort` runs its recursion to completion with the default fuel. -/
theorem topSort_runs (g : Digraph) :
    ∃ sf, visitListFuel g (tsFuel g) (sortNodes (keysList g)) ⟨[], []⟩ = some sf
      ∧ topSortFuel g (tsFuel g) = some sf.order ∧ top_sort g = sf.order := by
  have hsome := (visit_isSome g (tsFuel g)).2 (sortNodes (keysList g)) ⟨[], []⟩
    (by
      have h1 : ((keysList g).toFinset \ (([] : List N).toFinset)).card
          ≤ (keysList g).length := by
        calc ((keysList g).toFinset \ (([] : List N).toFinset)).card
            ≤ (keysList g).toFinset.card := Finset.card_le_card Finset.sdiff_subset
          _ ≤ (keysList g).length := List.toFinset_card_le _
      unfold tsFuel
      simp only [TSState.visited]
      omega)
  rcases hres : visitListFuel g (tsFuel g) (sortNodes (keysList g)) ⟨[], []⟩ with _ | sf
  · rw [hres] at hsome
    simp at hsome
  · refine ⟨sf, rfl, ?_, ?_⟩
    · unfold topSortFuel
      rw [hres]
    · unfold top_sort topSortFuel
      rw [hres]
      rfl

/-- C10: `top_sort` terminates and returns a defined, finite list on every
finite store — cyclic stores included: the visited set ensures each node's
recursive visit does real work at most once, so the default fuel bound (one
more than the number of adjacency keys) always suffices and the fuel-out
branch is never taken. -/
theorem top_sort_total (g : Digraph) :
    ∃ l, topSortFuel g (tsFuel g) = some l ∧ top_sort g = l := by
  obtain ⟨sf, _, h1, h2⟩ := topSort_runs g
  exact ⟨sf.order, h1, h2⟩

/-! ## Topological sort: correctness on acyclic stores

The invariant, relative to the gray list `G` (the chain of ancestors whose
visits are still running): the visited set is exactly `G` plus the finished
order, gray nodes are never in the order, the order list is duplicate-free
and closed (every successor of an ordered node is ordered, later in the
list), and every gray node reaches the node currently being visited — so,
on an acyclic store, a successor that is visited but unfinished would close
a cycle and cannot occur. -/

theorem visit_correct (g : Digraph) (hacyc : Acyclic g) :
    ∀ fuel,
      (∀ (n : N) (s s' : TSState) (G : List N), visitFuel g fuel n s = some s' →
        s.order.Nodup →
        (∀ u v, Edge g u v → u ∈ s.order → List.Sublist [u, v] s.order) →
        (∀ x, x ∈ s.visited ↔ (x ∈ G ∨ x ∈ s.order)) →
        (∀ x ∈ G, x ∉ s.order) →
        (∀ x ∈ G, ReachPlus g x n) →
        (s'.order.Nodup ∧
         (∀ u v, Edge g u v → u ∈ s'.order → List.Sublist [u, v] s'.order) ∧
         (∀ x, x ∈ s'.visited ↔ (x ∈ G ∨ x ∈ s'.order)) ∧
         (∀ x ∈ G, x ∉ s'.order) ∧
         (∀ x ∈ s.visited, x ∈ s'.visited) ∧
         (∃ pre, s'.order = pre ++ s.order) ∧ n ∈ s'.order ∧
         (∀ x ∈ s'.visited, x ∈ s.visited ∨ x = n ∨ x ∈ allAdjValues g)))
      ∧ (∀ (l : List N) (s s' : TSState) (G : List N),
          visitListFuel g fuel l s = some s' →
        s.order.Nodup →
        (∀ u v, Edge g u v → u ∈ s.order → List.Sublist [u, v] s.order) →
        (∀ x, x ∈ s.visited ↔ (x ∈ G ∨ x ∈ s.order)) →
        (∀ x ∈ G, x ∉ s.order) →
        (∀ m ∈ l, ∀ x ∈ G, ReachPlus g x m) →
        (s'.order.Nodup ∧
         (∀ u v, Edge g u v → u ∈ s'.order → List.Sublist [u, v] s'.order) ∧
         (∀ x, x ∈ s'.visited ↔ (x ∈ G ∨ x ∈ s'.order)) ∧
         (∀ x ∈ G, x ∉ s'.order) ∧
         (∀ x ∈ s.visited, x ∈ s'.visited) ∧
         (∃ pre, s'.order = pre ++ s.order) ∧ (∀ m ∈ l, m ∈ s'.order) ∧
         (∀ x ∈ s'.visited, x ∈ s.visited ∨ x ∈ l ∨ x ∈ allAdjValues g))) := by
  intro fuel
  induction fuel with
  | zero =>
    constructor
    · intro n s s' G hrun
      rw [visitFuel_zero] at hrun
      exact absurd hrun (by simp)
    · intro l
      induction l with
      | nil =>
        intro s s' G hrun nd cl ch dj _
        rw [visitListFuel_nil, Option.some.injEq] at hrun
        subst hrun
        exact ⟨nd, cl, ch, dj, fun x hx => hx, ⟨[], by simp⟩,
          fun m hm => absurd hm (by simp), fun x hx => Or.inl hx⟩
      | cons m ms ihl =>
        intro s s' G hrun nd cl ch dj hedges
        rw [visitListFuel_cons, visitFuel_zero] at hrun
        exact absurd hrun (by simp)
  | succ fuel ih =>
    obtain ⟨ihv, ihl⟩ := ih
    have hvisit : ∀ (n : N) (s s' : TSState) (G : List N),
        visitFuel g (fuel + 1) n s = some s' →
        s.order.Nodup →
        (∀ u v, Edge g u v → u ∈ s.order → List.Sublist [u, v] s.order) →
        (∀ x, x ∈ s.visited ↔ (x ∈ G ∨ x ∈ s.order)) →
        (∀ x ∈ G, x ∉ s.order) →
        (∀ x ∈ G, ReachPlus g x n) →
        (s'.order.Nodup ∧
         (∀ u v, Edge g u v → u ∈ s'.order → List.Sublist [u, v] s'.order) ∧
         (∀ x, x ∈ s'.visited ↔ (x ∈ G ∨ x ∈ s'.order)) ∧
         (∀ x ∈ G, x ∉ s'.order) ∧
         (∀ x ∈ s.visited, x ∈ s'.visited) ∧
         (∃ pre, s'.order = pre ++ s.order) ∧ n ∈ s'.order ∧
         (∀ x ∈ s'.visited, x ∈ s.visited ∨ x = n ∨ x ∈ allAdjValues g)) := by
      intro n s s' G hrun nd cl ch dj hg
      rw [visitFuel_succ] at hrun
      by_cases hn : n ∈ s.visited
      · rw [if_pos hn, Option.some.injEq] at hrun
        subst hrun
        have hnord : n ∈ s.order := by
          rcases (ch n).mp hn with h | h
          · exact absurd (hg n h) (hacyc n)
          · exact h
        exact ⟨nd, cl, ch, dj, fun x hx => hx, ⟨[], by simp⟩, hnord,
          fun x hx => Or.inl hx⟩
      · rw [if_neg hn] at hrun
        rcases hres : visitListFuel g fuel (sortNodes (adjList g n))
            ⟨n :: s.visited, s.order⟩ with _ | s2
        · rw [hres] at hrun
          exact absurd hrun (by simp)
        · rw [hres, Option.some.injEq] at hrun
          subst hrun
          have hnG : n ∉ G := fun h => hn ((ch n).mpr (Or.inl h))
          have hnord : n ∉ s.order := fun h => hn ((ch n).mpr (Or.inr h))
          obtain ⟨nd2, cl2, ch2, dj2, mono2, ⟨pre2, hpre2⟩, hall2, bound2⟩ :=
            ihl (sortNodes (adjList g n)) ⟨n :: s.visited, s.order⟩ s2 (n :: G) hres
              nd cl
              (by
                intro x
                show x ∈ n :: s.visited ↔ (x ∈ n :: G ∨ x ∈ s.order)
                constructor
                · intro hx
                  rcases List.mem_cons.mp hx with rfl | hx
                  · exact Or.inl (List.mem_cons_self _ _)
                  · rcases (ch x).mp hx with h | h
                    · exact Or.inl (List.mem_cons_of_mem _ h)
                    · exact Or.inr h
                · rintro (hx | hx)
                  · rcases List.mem_cons.mp hx with rfl | hx
                    · exact List.mem_cons_self _ _
                    · exact List.mem_cons_of_mem _ ((ch x).mpr (Or.inl hx))
                  · exact List.mem_cons_of_mem _ ((ch x).mpr (Or.inr hx)))
              (by
                intro x hx
                rcases List.mem_cons.mp hx with rfl | hx
                · exact hnord
                · exact dj x hx)
              (by
                intro m hm x hx
                have hadj : m ∈ adjList g n := by simpa [sortNodes] using hm
                rcases List.mem_cons.mp hx with rfl | hx
                · exact Relation.TransGen.single hadj
                · exact Relation.TransGen.tail (hg x hx) hadj)
          have hns2 : n ∉ s2.order := dj2 n (List.mem_cons_self _ _)
          refine ⟨?_, ?_, ?_, ?_, ?_, ?_, ?_, ?_⟩
          · exact List.nodup_cons.mpr ⟨hns2, nd2⟩
          · intro u v he hu
            rcases List.mem_cons.mp hu with rfl | hu
            · have hvmem : v ∈ s2.order :=
                hall2 v (by simpa [sortNodes, Edge] using he)
              exact List.Sublist.cons₂ u (List.singleton_sublist.mpr hvmem)
            · exact List.Sublist.cons n (cl2 u v he hu)
          · intro x
            show x ∈ s2.visited ↔ (x ∈ G ∨ x ∈ n :: s2.order)
            rw [ch2 x]
            simp only [List.mem_cons]
            tauto
          · intro x hx
            intro hmem
            rcases List.mem_cons.mp hmem with rfl | hmem
            · exact hnG hx
            · exact dj2 x (List.mem_cons_of_mem _ hx) hmem
          · intro x hx
            exact mono2 x (List.mem_cons_of_mem _ hx)
          · refine ⟨n :: pre2, ?_⟩
            show n :: s2.order = (n :: pre2) ++ s.order
            rw [List.cons_append, hpre2]
          · exact List.mem_cons_self _ _
          · intro x hx
            rcases bound2 x hx with h | h | h
            · rcases List.mem_cons.mp h with rfl | h
              · exact Or.inr (Or.inl rfl)
              · exact Or.inl h
            · refine Or.inr (Or.inr ?_)
              exact mem_allAdjValues g n x (by simpa [sortNodes] using h)
            · exact Or.inr (Or.inr h)
    refine ⟨hvisit, ?_⟩
    intro l
    induction l with
    | nil =>
      intro s s' G hrun nd cl ch dj _
      rw [visitListFuel_nil, Option.some.injEq] at hrun
      subst hrun
      exact ⟨nd, cl, ch, dj, fun x hx => hx, ⟨[], by simp⟩,
        fun m hm => absurd hm (by simp), fun x hx => Or.inl hx⟩
    | cons m ms ihll =>
      intro s s' G hrun nd cl ch dj hedges
      rw [visitListFuel_cons] at hrun
      rcases hm : visitFuel g (fuel + 1) m s with _ | s1
      · rw [hm] at hrun
        exact absurd hrun (by simp)
      · rw [hm] at hrun
        obtain ⟨nd1, cl1, ch1, dj1, mono1, ⟨pre1, hpre1⟩, hmord1, bound1⟩ :=
          hvisit m s s1 G hm nd cl ch dj
            (fun x hx => hedges m (List.mem_cons_self _ _) x hx)
        obtain ⟨nd2, cl2, ch2, dj2, mono2, ⟨pre2, hpre2⟩, hall2, bound2⟩ :=
          ihll s1 s' G hrun nd1 cl1 ch1 dj1
            (fun m' hm' x hx => hedges m' (List.mem_cons_of_mem _ hm') x hx)
        refine ⟨nd2, cl2, ch2, dj2, ?_, ?_, ?_, ?_⟩
        · exact fun x hx => mono2 x (mono1 x hx)
        · refine ⟨pre2 ++ pre1, ?_⟩
          rw [hpre2, hpre1, List.append_assoc]
        · intro m' hm'
          rcases List.mem_cons.mp hm' with rfl | hm'
          · rw [hpre2]
            exact List.mem_append.mpr (Or.inr hmord1)
          · exact hall2 m' hm'
        · intro x hx
          rcases bound2 x hx with h | h | h
          · rcases bound1 x h with h' | h' | h'
            · exact Or.inl h'
            · exact Or.inr (Or.inl (h' ▸ List.mem_cons_self _ _))
            · exact Or.inr (Or.inr h')
          · exact Or.inr (Or.inl (List.mem_cons_of_mem _ h))
          · exact Or.inr (Or.inr h)

/-! ## Claim C6: the ordering is a topological order -/

/-- Under the store invariant, every adjacency target is an adjacency key. -/
theorem wf_values_keys (g : Digraph) (h : WF g = true) :
    ∀ x ∈ allAdjValues g, x ∈ keysList g := by
  intro x hx
  unfold allAdjValues at hx
  rw [List.mem_flatten] at hx
  obtain ⟨l, hl, hxl⟩ := hx
  rw [List.mem_map] at hl
  obtain ⟨p, hp, rfl⟩ := hl
  unfold WF at h
  rw [List.all_eq_true] at h
  have h2 := h p hp
  rw [List.all_eq_true] at h2
  rw [← hasNode_iff_mem_keys]
  simpa using h2 x hxl

/-- A node with an outgoing edge is an adjacency key. -/
theorem edge_source_mem_keys (g : Digraph) (u v : N) (he : Edge g u v) :
    u ∈ keysList g := by
  rw [← hasNode_iff_mem_keys, hasNode]
  unfold Edge adjList at he
  rcases hg : getA g.adj u with _ | l
  · rw [hg] at he
    simp at he
  · simp [hg]

/-- A rank function that strictly increases along every recorded adjacency
certifies acyclicity. -/
theorem acyclic_of_rankOK (g : Digraph) (f : N → N) (h : rankOK g f = true) :
    Acyclic g := by
  have hedge : ∀ a b, Edge g a b → f a < f b := by
    intro a b he
    unfold Edge adjList at he
    rcases hg : getA g.adj a with _ | l
    · rw [hg] at he
      simp at he
    · rw [hg] at he
      simp only [Option.getD_some] at he
      unfold rankOK at h
      rw [List.all_eq_true] at h
      have h2 := h (a, l) (getA_mem _ _ _ hg)
      rw [List.all_eq_true] at h2
      simpa using h2 b he
  have hmono : ∀ a b, Relation.TransGen (Edge g) a b → f a < f b := by
    intro a b hab
    induction hab with
    | single h1 => exact hedge _ _ h1
    | tail h1 h2 ih => exact lt_trans ih (hedge _ _ h2)
  intro n hn
  exact lt_irrefl _ (hmono n n hn)

/-- C6: on every well-formed acyclic store, `top_sort` returns an ordering
holding every node of the graph exactly once, in which the source of every
edge appears before its target. -/
theorem top_sort_topological (g : Digraph) (hwf : WF g = true)
    (hacyc : Acyclic g) :
    (top_sort g).Nodup ∧
    (∀ n, n ∈ top_sort g ↔ hasNode g n = true) ∧
    (∀ u v, Edge g u v → List.Sublist [u, v] (top_sort g)) := by
  obtain ⟨sf, hrun, htsf, htop⟩ := topSort_runs g
  obtain ⟨nd, cl, ch, dj, mono, ⟨pre, hpre⟩, hall, bound⟩ :=
    (visit_correct g hacyc (tsFuel g)).2 (sortNodes (keysList g)) ⟨[], []⟩ sf []
      hrun List.nodup_nil
      (by intro u v he hu; exact absurd hu (by simp))
      (by intro x; simp)
      (by intro x hx; exact absurd hx (by simp))
      (by intro m hm x hx; exact absurd hx (by simp))
  have horder_keys : ∀ x ∈ sf.order, x ∈ keysList g := by
    intro x hx
    have hxv : x ∈ sf.visited := (ch x).mpr (Or.inr hx)
    rcases bound x hxv with h | h | h
    · exact absurd h (by simp)
    · simpa [sortNodes] using h
    · exact wf_values_keys g hwf x h
  rw [htop]
  refine ⟨nd, ?_, ?_⟩
  · intro n
    rw [hasNode_iff_mem_keys]
    constructor
    · exact horder_keys n
    · intro hk
      exact hall n (by simpa [sortNodes] using hk)
  · intro u v he
    exact cl u v he (hall u (by simpa [sortNodes] using edge_source_mem_keys g u v he))

/-- C6 witness: the conclusion at a concrete one-edge acyclic store, its
acyclicity certified by the identity rank function. -/
theorem top_sort_topological_witness :
    WF (add_edge emptyDigraph 0 1 []) = true ∧
    Acyclic (add_edge emptyDigraph 0 1 []) ∧
    ((top_sort (add_edge emptyDigraph 0 1 [])).Nodup ∧
     (∀ n, n ∈ top_sort (add_edge emptyDigraph 0 1 [])
        ↔ hasNode (add_edge emptyDigraph 0 1 []) n = true) ∧
     (∀ u v, Edge (add_edge emptyDigraph 0 1 []) u v →
        List.Sublist [u, v] (top_sort (add_edge emptyDigraph 0 1 [])))) :=
  ⟨by decide, acyclic_of_rankOK (add_edge emptyDigraph 0 1 []) (fun x => x) (by decide),
    top_sort_topological (add_edge emptyDigraph 0 1 []) (by decide)
      (acyclic_of_rankOK (add_edge emptyDigraph 0 1 []) (fun x => x) (by decide))⟩

end StudentGraph
